import Mathlib

/-!
Verification of the normal-mode anharmonic solvers in `ipi/engine/motion/nm.py`
(classes `NormalModeMover`, `IMF`, `PC`, `VSCFMapper`, `VSCFSolver`).

The Python code is shallowly embedded over `ℚ`: every floating-point quantity
becomes a rational, external services (the potential/force evaluator, the
scipy interpolants and the quadratic fit) become function parameters, and the
unbounded `while True:` loops become fueled recursions returning `Option`.
-/

/-- Rational power with a natural exponent, used to render Python's `**`.
It is definitionally a chain of multiplications so that the kernel can
evaluate it on concrete inputs; `qpow_eq_pow` identifies it with `Monoid.npow`. -/
def qpow (a : ℚ) : ℕ → ℚ
  | 0 => 1
  | n+1 => a * qpow a n

theorem qpow_eq_pow (a : ℚ) : ∀ n : ℕ, qpow a n = a ^ n
  | 0 => by rw [qpow]; norm_num
  | n+1 => by rw [qpow, qpow_eq_pow a n, pow_succ]; ring

/- ===================== C1 / C2 : IMF.step adaptive sampling ===================== -/

/-- Total energy (harmonic plus anharmonic residual) of the sample at integer
displacement multiple `c` along the mode: `0.50 * w2 * (nmd * counter)**2 + dv`
(`nm.py` line 456/485); the anharmonic residual `dv` returned by the potential
service at counter `c` is the oracle `dv c`. -/
def imfTotE (dv : ℤ → ℚ) (w2 nmd : ℚ) (c : ℤ) : ℚ :=
  1/2 * w2 * qpow (nmd * c) 2 + dv c

/-- One direction of the inner sampling loop of `IMF.step` (`nm.py` 438-461 for
the +ve direction, 467-490 for the -ve one): starting from counter `c`, append
a sample at every visited counter, and stop at the first sample for which
`self.nevib * self.imm.nmevib[step] < np.abs(0.50*w2*(nmd*counter)**2 + dv)`
(`thr < |imfTotE dv w2 nmd c|`).  Between samples the counter advances by
`delta` (`delta_counter`, which is `1` on the first density pass and `2`
afterwards; negated for the -ve direction).  The Python loop is unbounded, so
the embedding takes fuel and returns the list of sampled counters. -/
def imfSampleDir (dv : ℤ → ℚ) (w2 nmd thr : ℚ) (delta : ℤ) : ℤ → ℕ → Option (List ℤ)
  | _, 0 => none
  | c, fuel+1 =>
    if thr < |imfTotE dv w2 nmd c| then some [c]
    else
      match imfSampleDir dv w2 nmd thr delta (c + delta) fuel with
      | none => none
      | some l => some (c :: l)

/-- The per-direction property asserted by claim C1: every sampled point other
than the final one has magnitude of total energy strictly below the bailout
threshold. -/
def imfEarlierStrictLt (dv : ℤ → ℚ) (w2 nmd thr : ℚ) (l : List ℤ) : Prop :=
  ∀ c ∈ l.dropLast, |imfTotE dv w2 nmd c| < thr

/-- Anharmonic residual used to refute the strict inequality of C1: the total
energy of the first sample equals the threshold exactly, so the loop keeps
going, yet that earlier sample is not strictly below the threshold. -/
def dvC1 : ℤ → ℚ := fun c => (c : ℚ)

/-- Step size used on density pass `k` of the outer loop of `IMF.step`
(`nm.py` 420-423): `ffnmrms = self.fnmrms * 0.5**sampling_density_iter * 2.0`
and `nmd = ffnmrms * self.imm.nmrms[step]`. -/
def imfStepSize (fnmrms nmrms : ℚ) (k : ℕ) : ℚ :=
  fnmrms * qpow (1/2) k * 2 * nmrms

/-- Initial element of the `Aanh` list (`Aanh.append(1e-20)`, `nm.py` 407). -/
def imfAinit : ℚ := 1 / qpow 10 20

/-- Free-energy value the outer loop compares at pass `k`: pass `k` appends
`g k` to `Aanh`, so `Aanh[-2]` is `g (k-1)` for `k ≥ 1` and `1e-20` at `k = 0`. -/
def imfAPrev (g : ℕ → ℚ) : ℕ → ℚ
  | 0 => imfAinit
  | k+1 => g k

/-- Convergence test of the outer density loop at pass `k`
(`np.abs(Aanh[-1] - Aanh[-2]) / np.abs(Aanh[-2]) < athresh`, `nm.py` 526). -/
def imfConvAt (g : ℕ → ℚ) (athresh : ℚ) (k : ℕ) : Prop :=
  |g k - imfAPrev g k| / |imfAPrev g k| < athresh

instance (g : ℕ → ℚ) (athresh : ℚ) (k : ℕ) : Decidable (imfConvAt g athresh k) := by
  unfold imfConvAt; infer_instance

/-- Outer sampling-density refinement loop of `IMF.step` (`nm.py` 413-527),
instrumented to record the displacement step `nmd` used on each pass.  The
converged anharmonic free energy produced by pass `k` (the inner basis-size
loop plus `solve_schroedingers_equation`) is the oracle `g k`.  Pass `k`
runs with step `imfStepSize fnmrms nmrms k` and the loop breaks at the first
pass whose free energy agrees with the previous pass within `athresh`. -/
def imfDensityLoop (g : ℕ → ℚ) (athresh fnmrms nmrms : ℚ) : ℕ → ℕ → Option (List ℚ)
  | _, 0 => none
  | k, fuel+1 =>
    if imfConvAt g athresh k then some [imfStepSize fnmrms nmrms k]
    else
      match imfDensityLoop g athresh fnmrms nmrms (k+1) fuel with
      | none => none
      | some l => some (imfStepSize fnmrms nmrms k :: l)

/-- The outer loop as entered by `IMF.step`: first pass is
`sampling_density_iter = 0`. -/
def imfDensityRun (g : ℕ → ℚ) (athresh fnmrms nmrms : ℚ) (fuel : ℕ) : Option (List ℚ) :=
  imfDensityLoop g athresh fnmrms nmrms 0 fuel

/-- Free-energy oracle for the C2 counterexample: every density pass returns
exactly the initial `1e-20`, so the loop converges on its first pass. -/
def gC2 : ℕ → ℚ := fun _ => imfAinit

/- ===================== C5 : VSCFSolver.step fixed-point loop ===================== -/

/-- Convergence test of the VSCF iteration at iteration `k ≥ 1`
(`np.abs(acoupled - aold)/np.abs(aold) < self.athresh`, `nm.py` 1374): `A k`
is `acoupled` computed during iteration `k` and `A 0` is the initial `aold`
(`aindep`); `aold` is refreshed every iteration, so at iteration `k` it holds
`A (k-1)`. -/
def vscfConvAt (A : ℕ → ℚ) (athresh : ℚ) (k : ℕ) : Prop :=
  |A k - A (k-1)| / |A (k-1)| < athresh

instance (A : ℕ → ℚ) (athresh : ℚ) (k : ℕ) : Decidable (vscfConvAt A athresh k) := by
  unfold vscfConvAt; infer_instance

/-- The VSCF fixed-point loop of `VSCFSolver.step` (`nm.py` 1277-1379), with
the physics of one iteration (density, mean-field mixing, diagonalisation,
free energy) abstracted into the oracle `A`.  `iiter` is incremented at the
top of the body; the tests `if iiter > 5: if converged: break; if iiter > 200:
break` close the loop.  Returns `(iterations executed, warning printed)`. -/
def vscfIter (A : ℕ → ℚ) (athresh : ℚ) : ℕ → ℕ → Option (ℕ × Bool)
  | _, 0 => none
  | k, fuel+1 =>
    if 5 < k ∧ vscfConvAt A athresh k then some (k, false)
    else if 5 < k ∧ 200 < k then some (k, true)
    else vscfIter A athresh (k+1) fuel

/-- The loop as entered (`iiter = 0` before the body, so the first executed
iteration has `iiter = 1`); fuel `201` is enough for every input. -/
def vscfRun (A : ℕ → ℚ) (athresh : ℚ) : Option (ℕ × Bool) :=
  vscfIter A athresh 1 201

/-- Free-energy oracle for the C5 counterexample: alternates between `1` and
`2`, so the relative change is `1` or `1/2` at every iteration and the
threshold `1/10` is never met. -/
def aC5 : ℕ → ℚ := fun k => if k % 2 = 0 then 1 else 2

/- ===================== C7 : PC.step single pass and quadratic fit ===================== -/

/-- `PC.bind` overrides the fraction of the harmonic RMS displacement with a
hardcoded value (`self.fnmrms = 2.0`, `nm.py` 573), discarding the configured
`fnmrms`. -/
def pcFnmrms : ℚ := 2

/-- Displacement step used by `PC.step`: `nmd = ffnmrms * self.imm.nmrms[step]`
with `ffnmrms = self.fnmrms` (`nm.py` 600-601). -/
def pcNmd (nmrms : ℚ) : ℚ := pcFnmrms * nmrms

/-- Bailout threshold of `PC.step`:
`self.imm.nmevib[step] * ffnmrms * 0.75` (`nm.py` 611/626). -/
def pcThr (nmevib : ℚ) : ℚ := nmevib * pcFnmrms * (3/4)

/-- Total energy tested by `PC.step` at counter `c`:
`dv + 0.50 * self.imm.w2[step] * (nmd * counter)**2` (no absolute value). -/
def pcTotE (dv : ℤ → ℚ) (w2 nmd : ℚ) (c : ℤ) : ℚ :=
  dv c + 1/2 * w2 * qpow (nmd * c) 2

/-- One displacement pass of `PC.step` (`nm.py` 605-616 for the +ve
direction, 620-631 for the -ve one): starting at counter `c` and advancing by
`cstep` (`+1` or `-1`), stop -- and record the sample -- at the first counter
whose total energy strictly exceeds the threshold.  Non-exceeding counters
are visited but not recorded.  Returns the stopping counter. -/
def pcPass (dv : ℤ → ℚ) (w2 nmd thr : ℚ) (cstep : ℤ) : ℤ → ℕ → Option ℤ
  | _, 0 => none
  | c, fuel+1 =>
    if thr < pcTotE dv w2 nmd c then some c
    else pcPass dv w2 nmd thr cstep (c + cstep) fuel

/-- Stopping property claimed by C7 with threshold `thrClaim =
nmevib * fnmrms_configured * 0.75`: the pass stops at the first counter (in
the +ve direction) whose total energy exceeds `thrClaim`. -/
def pcClaimStopPos (dv : ℤ → ℚ) (w2 nmd thrClaim : ℚ) (c : ℤ) : Prop :=
  thrClaim < pcTotE dv w2 nmd c ∧ ∀ c', 1 ≤ c' → c' < c → ¬ thrClaim < pcTotE dv w2 nmd c'

/-- Anharmonic residual for the C7 counterexample: identically zero. -/
def dvC7 : ℤ → ℚ := fun _ => 0

/-- Outcome of `PC.step` for one mode after both passes (`nm.py` 640-645):
`a, b, c = np.polyfit(qlist, vlist, 2)` is the oracle `fit` applied to the
recorded samples `[(0, 0), (nmd*cpos, dv cpos), (nmd*cneg, dv cneg)]`, after
which `self.w2pc[step] = 2 * a` and the equilibrium shift along the mode
vector has coefficient `-b / a / 2.0`. -/
def pcStepMode (dv : ℤ → ℚ) (w2 nmrms nmevib : ℚ)
    (fit : List (ℚ × ℚ) → ℚ × ℚ × ℚ) (fuel : ℕ) : Option (ℚ × ℚ) :=
  match pcPass dv w2 (pcNmd nmrms) (pcThr nmevib) 1 1 fuel with
  | none => none
  | some cpos =>
    match pcPass dv w2 (pcNmd nmrms) (pcThr nmevib) (-1) (-1) fuel with
    | none => none
    | some cneg =>
      let samples := [((0 : ℚ), (0 : ℚ)),
                      (pcNmd nmrms * cpos, dv cpos),
                      (pcNmd nmrms * cneg, dv cneg)]
      let abc := fit samples
      some (2 * abc.1, -abc.2.1 / abc.1 / 2)

/- ===================== C9 : MP2 matrix-element accumulation ===================== -/

/-- Accumulation of the MP2 matrix element over modes (`nm.py` 1451-1476):
for each mode `inm` the coupled part gains `sum_jnm 0.5 * matel1 * matel2`
(abstracted as `cplContrib inm`), the mean-field term `matel3` is computed
(abstracted as `matel3 inm`) -- and then the code executes the self-assignment
`matelmft += matelmft` instead of accumulating `matel3`.  Returns the final
`(matelcpl, matelmft)`. -/
def mp2MatelLoop (inms : List ℕ) (cplContrib : ℕ → ℚ) (matel3 : ℕ → ℚ) : ℚ × ℚ :=
  inms.foldl
    (fun acc inm =>
      let _m3 := matel3 inm
      (acc.1 + cplContrib inm, acc.2 + acc.2))
    (0, 0)

/-- The perturbative matrix element `matel = matelcpl - matelmft`
(`nm.py` 1477). -/
def mp2Matel (inms : List ℕ) (cplContrib : ℕ → ℚ) (matel3 : ℕ → ℚ) : ℚ :=
  (mp2MatelLoop inms cplContrib matel3).1 - (mp2MatelLoop inms cplContrib matel3).2

/- ===================== C10 : IMF.bind dynamical-matrix intake ===================== -/

/-- Intake of the supplied dynamical matrix in `IMF.bind` (`nm.py` 234-240),
with the flattened matrix as a list of rationals and `nq = 3 * natoms =
self.imm.beads.q.size`: a size mismatch raises
`ValueError("Force constant matrix size does not match system size")` unless
the matrix is empty, in which case an all-zero `nq x nq` matrix is
substituted silently; a matching size is reshaped (kept as-is). -/
def imfBindDynmat (nq : ℕ) (dynmat : List ℚ) : Except String (List ℚ) :=
  if dynmat.length ≠ nq * nq then
    if dynmat.length = 0 then .ok (List.replicate (nq * nq) 0)
    else .error "Force constant matrix size does not match system size"
  else .ok dynmat

/- ===================== helper lemmas ===================== -/

theorem imfSampleDir_spec (dv : ℤ → ℚ) (w2 nmd thr : ℚ) (delta : ℤ) :
    ∀ (fuel : ℕ) (start : ℤ) (l : List ℤ),
      imfSampleDir dv w2 nmd thr delta start fuel = some l →
      l ≠ [] ∧
      (∀ x, l.getLast? = some x → thr < |imfTotE dv w2 nmd x|) ∧
      (∀ c ∈ l.dropLast, |imfTotE dv w2 nmd c| ≤ thr) ∧
      (∀ k (hk : k < l.length), l.get ⟨k, hk⟩ = start + k * delta) := by
  intro fuel
  induction fuel with
  | zero => intro start l h; simp [imfSampleDir] at h
  | succ n ih =>
    intro start l h
    rw [imfSampleDir] at h
    by_cases hb : thr < |imfTotE dv w2 nmd start|
    · rw [if_pos hb] at h
      cases h
      refine ⟨by simp, ?_, ?_, ?_⟩
      · intro x hx; simp [List.getLast?] at hx; subst hx; exact hb
      · intro c hc; simp at hc
      · intro k hk
        simp only [List.length_singleton] at hk
        interval_cases k
        simp
    · rw [if_neg hb] at h
      cases htail : imfSampleDir dv w2 nmd thr delta (start + delta) n with
      | none => rw [htail] at h; cases h
      | some t =>
        rw [htail] at h
        cases h
        obtain ⟨hne, hlast, hearlier, hidx⟩ := ih (start + delta) t htail
        refine ⟨by simp, ?_, ?_, ?_⟩
        · intro x hx
          cases t with
          | nil => exact absurd rfl hne
          | cons b t2 =>
            rw [List.getLast?_cons_cons] at hx
            exact hlast x hx
        · intro c hc
          rw [List.dropLast_cons_of_ne_nil hne] at hc
          rcases List.mem_cons.mp hc with hc | hc
          · subst hc; exact le_of_not_lt hb
          · exact hearlier c hc
        · intro k hk
          cases k with
          | zero => simp
          | succ m =>
            have hm : m < t.length := by simpa using hk
            have := hidx m hm
            simp only [List.get_cons_succ]
            rw [this]
            push_cast
            ring

theorem imfDensityLoop_spec (g : ℕ → ℚ) (athresh fnmrms nmrms : ℚ) :
    ∀ (fuel k0 : ℕ) (l : List ℚ),
      imfDensityLoop g athresh fnmrms nmrms k0 fuel = some l →
      l ≠ [] ∧
      (∀ j (hj : j < l.length), l.get ⟨j, hj⟩ = imfStepSize fnmrms nmrms (k0 + j)) ∧
      (∀ j, j < l.length - 1 → ¬ imfConvAt g athresh (k0 + j)) ∧
      imfConvAt g athresh (k0 + (l.length - 1)) := by
  intro fuel
  induction fuel with
  | zero => intro k0 l h; simp [imfDensityLoop] at h
  | succ n ih =>
    intro k0 l h
    rw [imfDensityLoop] at h
    by_cases hc : imfConvAt g athresh k0
    · rw [if_pos hc] at h
      cases h
      refine ⟨by simp, ?_, ?_, by simpa using hc⟩
      · intro j hj
        simp only [List.length_singleton] at hj
        interval_cases j
        simp
      · intro j hj; simp at hj
    · rw [if_neg hc] at h
      cases htail : imfDensityLoop g athresh fnmrms nmrms (k0+1) n with
      | none => rw [htail] at h; cases h
      | some t =>
        rw [htail] at h
        cases h
        obtain ⟨hne, hidx, hnc, hconv⟩ := ih (k0+1) t htail
        have hlen : t.length ≠ 0 := fun h0 => hne (List.eq_nil_of_length_eq_zero h0)
        refine ⟨by simp, ?_, ?_, ?_⟩
        · intro j hj
          cases j with
          | zero => simp
          | succ m =>
            have hm : m < t.length := by simpa using hj
            have := hidx m hm
            simp only [List.get_cons_succ]
            rw [this]
            congr 1
            omega
        · intro j hj
          cases j with
          | zero => simpa using hc
          | succ m =>
            have hm : m < t.length - 1 := by
              simp only [List.length_cons] at hj
              omega
            have := hnc m hm
            convert this using 2
            omega
        · have : (k0 + ((t.length + 1) - 1)) = (k0 + 1) + (t.length - 1) := by omega
          simp only [List.length_cons]
          rw [this]
          exact hconv

theorem pcPass_pos_spec (dv : ℤ → ℚ) (w2 nmd thr : ℚ) :
    ∀ (fuel : ℕ) (start c : ℤ),
      pcPass dv w2 nmd thr 1 start fuel = some c →
      thr < pcTotE dv w2 nmd c ∧
      start ≤ c ∧
      (∀ c', start ≤ c' → c' < c → ¬ thr < pcTotE dv w2 nmd c') := by
  intro fuel
  induction fuel with
  | zero => intro start c h; simp [pcPass] at h
  | succ n ih =>
    intro start c h
    rw [pcPass] at h
    by_cases hb : thr < pcTotE dv w2 nmd start
    · rw [if_pos hb] at h
      cases h
      exact ⟨hb, le_refl _, fun c' h1 h2 => absurd h1 (not_le.mpr h2)⟩
    · rw [if_neg hb] at h
      obtain ⟨hc, hge, hfirst⟩ := ih (start + 1) c h
      refine ⟨hc, by omega, ?_⟩
      intro c' h1 h2
      rcases eq_or_lt_of_le h1 with h1 | h1
      · subst h1; exact hb
      · exact hfirst c' (by omega) h2

theorem mp2MatelLoop_snd (inms : List ℕ) (cplContrib : ℕ → ℚ) (matel3 : ℕ → ℚ) :
    ∀ (init : ℚ × ℚ),
      (inms.foldl
        (fun acc inm =>
          let _m3 := matel3 inm
          (acc.1 + cplContrib inm, acc.2 + acc.2)) init).2 = init.2 * 2 ^ inms.length := by
  induction inms with
  | nil => intro init; simp
  | cons a t ih =>
    intro init
    simp only [List.foldl_cons, List.length_cons]
    rw [ih]
    simp only
    ring

instance (dv : ℤ → ℚ) (w2 nmd thr : ℚ) (l : List ℤ) :
    Decidable (imfEarlierStrictLt dv w2 nmd thr l) := by
  unfold imfEarlierStrictLt; infer_instance

theorem pcPass_neg_spec (dv : ℤ → ℚ) (w2 nmd thr : ℚ) :
    ∀ (fuel : ℕ) (start c : ℤ),
      pcPass dv w2 nmd thr (-1) start fuel = some c →
      thr < pcTotE dv w2 nmd c ∧
      c ≤ start ∧
      (∀ c', c' ≤ start → c < c' → ¬ thr < pcTotE dv w2 nmd c') := by
  intro fuel
  induction fuel with
  | zero => intro start c h; simp [pcPass] at h
  | succ n ih =>
    intro start c h
    rw [pcPass] at h
    by_cases hb : thr < pcTotE dv w2 nmd start
    · rw [if_pos hb] at h
      cases h
      exact ⟨hb, le_refl _, fun c' h1 h2 => absurd h1 (not_le.mpr h2)⟩
    · rw [if_neg hb] at h
      obtain ⟨hc, hge, hfirst⟩ := ih (start + -1) c h
      refine ⟨hc, by omega, ?_⟩
      intro c' h1 h2
      rcases eq_or_lt_of_le h1 with h1 | h1
      · subst h1; exact hb
      · exact hfirst c' (by omega) h2

theorem vscfIter_spec (A : ℕ → ℚ) (athresh : ℚ) :
    ∀ (fuel k : ℕ), 1 ≤ k → k ≤ 201 → 202 ≤ k + fuel →
      ∃ n w, vscfIter A athresh k fuel = some (n, w) ∧
        6 ≤ n ∧ k ≤ n ∧ n ≤ 201 ∧
        (∀ j, k ≤ j → j < n → ¬ (5 < j ∧ vscfConvAt A athresh j)) ∧
        (w = false → vscfConvAt A athresh n) ∧
        (w = true → ¬ vscfConvAt A athresh n ∧ 200 < n) := by
  intro fuel
  induction fuel with
  | zero => intro k h1 h2 h3; omega
  | succ m ih =>
    intro k h1 h2 h3
    rw [vscfIter]
    by_cases hstop : 5 < k ∧ vscfConvAt A athresh k
    · rw [if_pos hstop]
      refine ⟨k, false, rfl, by omega, le_refl _, h2, ?_, fun _ => hstop.2, ?_⟩
      · intro j hj1 hj2; omega
      · intro hw; simp at hw
    · rw [if_neg hstop]
      by_cases hcap : 5 < k ∧ 200 < k
      · rw [if_pos hcap]
        refine ⟨k, true, rfl, by omega, le_refl _, h2, ?_, ?_, ?_⟩
        · intro j hj1 hj2; omega
        · intro hw; simp at hw
        · intro _
          exact ⟨fun hconv => hstop ⟨hcap.1, hconv⟩, hcap.2⟩
      · rw [if_neg hcap]
        have hk2 : k ≤ 200 := by omega
        obtain ⟨n, w, heq, h6, hkn, h201, hnostop, hwf, hwt⟩ :=
          ih (k+1) (by omega) (by omega) (by omega)
        refine ⟨n, w, heq, h6, by omega, h201, ?_, hwf, hwt⟩
        intro j hj1 hj2
        rcases eq_or_lt_of_le hj1 with hj1 | hj1
        · subst hj1; exact hstop
        · exact hnostop j (by omega) hj2

/- ===================== C1 ===================== -/

/-- C1 (counterexample): the claim's strict bound on the earlier samples fails.
With `w2 = 0`, `nmd = 1`, threshold `nevib * nmevib = 1`, `delta_counter = 1`
and the anharmonic residual `dvC1 c = c`, the +ve-direction pass samples the
counters `[1, 2]`: the first sample has total-energy magnitude exactly `1`
(not exceeding the threshold, so the loop continues), yet it is not strictly
below the threshold as the claim asserts. -/
theorem C1_counterexample :
    imfSampleDir dvC1 0 1 1 1 1 5 = some [1, 2] ∧
    ¬ imfEarlierStrictLt dvC1 0 1 1 [1, 2] := by
  constructor
  · with_unfolding_all rfl
  · intro h
    have h1 := h 1 (by simp)
    rw [imfTotE] at h1
    norm_num [dvC1, qpow_eq_pow] at h1

/-- C1 (amended): for every treated mode and each direction, the sampling
loop of `IMF.step` appends a sample at each visited counter (spaced by
`delta_counter` from the starting counter) and stops exactly at the first
sample whose magnitude of total energy (harmonic `0.5*w2*q^2` plus anharmonic
residual `dv`) strictly exceeds `nevib * nmevib`; consequently the final
sampled point in each direction satisfies `|harmonic + anharmonic| ≥
nevib * nmevib` and every earlier sampled point in that direction satisfies
`≤` (not `<`: equality keeps the loop going). -/
theorem C1_sampler_invariant_amended (dv : ℤ → ℚ) (w2 nmd thr : ℚ)
    (delta start : ℤ) (fuel : ℕ) (l : List ℤ)
    (h : imfSampleDir dv w2 nmd thr delta start fuel = some l) :
    l ≠ [] ∧
    (∀ x, l.getLast? = some x → thr < |imfTotE dv w2 nmd x|) ∧
    (∀ x, l.getLast? = some x → thr ≤ |imfTotE dv w2 nmd x|) ∧
    (∀ c ∈ l.dropLast, |imfTotE dv w2 nmd c| ≤ thr) ∧
    (∀ k (hk : k < l.length), l.get ⟨k, hk⟩ = start + k * delta) := by
  obtain ⟨hne, hlast, hearlier, hidx⟩ := imfSampleDir_spec dv w2 nmd thr delta fuel start l h
  exact ⟨hne, hlast, fun x hx => le_of_lt (hlast x hx), hearlier, hidx⟩

/-- C1 (witness): the amended invariant instantiated on the concrete run of
the counterexample input. -/
theorem C1_sampler_invariant_witness :
    ([1, 2] : List ℤ) ≠ [] ∧
    (∀ x, ([1, 2] : List ℤ).getLast? = some x → (1 : ℚ) < |imfTotE dvC1 0 1 x|) ∧
    (∀ x, ([1, 2] : List ℤ).getLast? = some x → (1 : ℚ) ≤ |imfTotE dvC1 0 1 x|) ∧
    (∀ c ∈ ([1, 2] : List ℤ).dropLast, |imfTotE dvC1 0 1 c| ≤ 1) ∧
    (∀ k (hk : k < ([1, 2] : List ℤ).length),
      ([1, 2] : List ℤ).get ⟨k, hk⟩ = 1 + k * 1) :=
  C1_sampler_invariant_amended dvC1 0 1 1 1 1 5 [1, 2] (by with_unfolding_all rfl)

/- ===================== C2 ===================== -/

/-- C2 (counterexample): on the first pass of the outer sampling-density loop
the displacement step is `fnmrms * 0.5^0 * 2.0 * nmrms = 2 * fnmrms * nmrms`,
not `fnmrms * nmrms` as claimed: with `fnmrms = nmrms = 1` and an oracle that
converges immediately the loop runs exactly one pass whose recorded step is
`2`, while the claim predicts `1`. -/
theorem C2_counterexample :
    imfDensityRun gC2 1 1 1 5 = some [imfStepSize 1 1 0] ∧
    imfStepSize 1 1 0 = 2 ∧ ¬ imfStepSize 1 1 0 = 1 * 1 := by
  refine ⟨by with_unfolding_all rfl, by norm_num [imfStepSize, qpow],
    by norm_num [imfStepSize, qpow]⟩

/-- C2 (amended): in `IMF.step`, on the first pass of the outer
sampling-density refinement loop the displacement step along mode `i` equals
`2 * fnmrms * nmrms_i` (the code doubles the configured step so that
convergence at the input density can be estimated), and each subsequent pass
halves the step; the loop stops at the first pass whose free energy agrees
with the previous density's result within `athresh` (relative change), the
test failing on every earlier pass. -/
theorem C2_density_refinement_amended (g : ℕ → ℚ) (athresh fnmrms nmrms : ℚ)
    (fuel : ℕ) (l : List ℚ) (h : imfDensityRun g athresh fnmrms nmrms fuel = some l) :
    l ≠ [] ∧
    (∀ x, l.head? = some x → x = 2 * fnmrms * nmrms) ∧
    (∀ j (hj : j < l.length), l.get ⟨j, hj⟩ = fnmrms * (1/2) ^ j * 2 * nmrms) ∧
    (∀ j (hj1 : j + 1 < l.length) (hj2 : j < l.length),
      l.get ⟨j + 1, hj1⟩ = l.get ⟨j, hj2⟩ / 2) ∧
    (∀ j, j < l.length - 1 → ¬ imfConvAt g athresh j) ∧
    imfConvAt g athresh (l.length - 1) := by
  obtain ⟨hne, hidx, hnc, hconv⟩ := imfDensityLoop_spec g athresh fnmrms nmrms fuel 0 l h
  simp only [Nat.zero_add] at hidx hnc hconv
  refine ⟨hne, ?_, ?_, ?_, hnc, hconv⟩
  · intro x hx
    cases l with
    | nil => cases hx
    | cons a t =>
      simp only [List.head?_cons, Option.some.injEq] at hx
      subst hx
      have h0 : a = imfStepSize fnmrms nmrms 0 := hidx 0 (by simp)
      rw [h0, imfStepSize, qpow]
      ring
  · intro j hj
    rw [hidx j hj, imfStepSize, qpow_eq_pow]
  · intro j hj1 hj2
    rw [hidx j hj2, hidx (j+1) hj1, imfStepSize, imfStepSize,
      qpow_eq_pow, qpow_eq_pow, pow_succ]
    ring

/-- C2 (witness): the amended statement instantiated on the concrete
immediately-converging run of the counterexample. -/
theorem C2_density_refinement_witness :
    [imfStepSize 1 1 0] ≠ [] ∧
    (∀ x, [imfStepSize 1 1 0].head? = some x → x = 2 * 1 * 1) ∧
    (∀ j (hj : j < [imfStepSize 1 1 0].length),
      [imfStepSize 1 1 0].get ⟨j, hj⟩ = 1 * (1/2) ^ j * 2 * 1) ∧
    (∀ j (hj1 : j + 1 < [imfStepSize 1 1 0].length)
       (hj2 : j < [imfStepSize 1 1 0].length),
      [imfStepSize 1 1 0].get ⟨j + 1, hj1⟩ = [imfStepSize 1 1 0].get ⟨j, hj2⟩ / 2) ∧
    (∀ j, j < [imfStepSize 1 1 0].length - 1 → ¬ imfConvAt gC2 1 j) ∧
    imfConvAt gC2 1 ([imfStepSize 1 1 0].length - 1) :=
  C2_density_refinement_amended gC2 1 1 1 5 [imfStepSize 1 1 0] (by with_unfolding_all rfl)

/- ===================== C5 ===================== -/

set_option maxRecDepth 100000 in
/-- C5 (counterexample): when the threshold is never met the loop does not
stop at 200 iterations: with the alternating free-energy oracle and
`athresh = 1/10` the relative change is always at least `1/2`, and the run
executes 201 iterations (the guard `iiter > 200` only fires once
`iiter = 201`), printing the convergence warning. -/
theorem C5_counterexample :
    vscfRun aC5 (1/10) = some (201, true) ∧ (201 : ℕ) ≠ 200 := by
  constructor
  · with_unfolding_all rfl
  · omega

/-- C5 (amended): the VSCF fixed-point loop of `VSCFSolver.step` terminates
for every input: the convergence test `|A_new - A_old| / |A_old| < athresh`
is applied only from iteration 6 onward (so the loop always runs at least 6
iterations and never stops at an earlier iteration), and if the threshold is
never met the loop stops during iteration 201 -- the check `iiter > 200`
fires once `iiter = 201` -- after printing a non-fatal convergence warning,
never looping forever. -/
theorem C5_vscf_termination_amended (A : ℕ → ℚ) (athresh : ℚ) :
    (∃ n w, vscfRun A athresh = some (n, w) ∧ 6 ≤ n ∧ n ≤ 201) ∧
    (∀ n w, vscfRun A athresh = some (n, w) →
      ∀ j, 1 ≤ j → j < n → ¬ (5 < j ∧ vscfConvAt A athresh j)) ∧
    (∀ n, vscfRun A athresh = some (n, false) → vscfConvAt A athresh n) ∧
    ((∀ k, 6 ≤ k → k ≤ 201 → ¬ vscfConvAt A athresh k) →
      vscfRun A athresh = some (201, true)) := by
  obtain ⟨n, w, heq, h6, hkn, h201, hnostop, hwf, hwt⟩ :=
    vscfIter_spec A athresh 201 1 (by omega) (by omega) (by omega)
  have hrun : vscfRun A athresh = some (n, w) := heq
  refine ⟨⟨n, w, hrun, h6, h201⟩, ?_, ?_, ?_⟩
  · intro n' w' heq' j hj1 hj2
    have hinj := Option.some.inj (hrun.symm.trans heq')
    injection hinj with h1 h2
    subst h1
    exact hnostop j hj1 hj2
  · intro n' heq'
    have hinj := Option.some.inj (hrun.symm.trans heq')
    injection hinj with h1 h2
    subst h1
    exact hwf h2
  · intro hnever
    rw [hrun]
    cases w with
    | false =>
      exact absurd (hwf rfl) (hnever n h6 h201)
    | true =>
      obtain ⟨hnc, hgt⟩ := hwt rfl
      have hn : n = 201 := by omega
      subst hn
      rfl

/-- C5 (witness): the never-converging branch of the amended statement
instantiated on the alternating oracle, with the never-converging hypothesis
discharged by parity arithmetic. -/
theorem C5_vscf_termination_witness :
    vscfRun aC5 (1/10) = some (201, true) := by
  refine (C5_vscf_termination_amended aC5 (1/10)).2.2.2 ?_
  intro k hk1 hk2 hconv
  rw [vscfConvAt] at hconv
  rcases Nat.even_or_odd k with he | ho
  · have h1 : aC5 k = 1 := by simp [aC5, Nat.even_iff.mp he]
    have hm : (k - 1) % 2 = 1 := by
      have := Nat.even_iff.mp he
      omega
    have h2 : aC5 (k - 1) = 2 := by simp [aC5, hm]
    rw [h1, h2] at hconv
    norm_num at hconv
  · have h1 : aC5 k = 2 := by simp [aC5, Nat.odd_iff.mp ho]
    have hm : (k - 1) % 2 = 0 := by
      have := Nat.odd_iff.mp ho
      omega
    have h2 : aC5 (k - 1) = 1 := by simp [aC5, hm]
    rw [h1, h2] at hconv
    norm_num at hconv

/- ===================== C7 ===================== -/

/-- C7 (counterexample): the pass of `PC.step` does not stop at the first
displacement whose total energy exceeds `nmevib * fnmrms_configured * 0.75`.
With configured `fnmrms = 1`, `nmrms = 1`, `nmevib = 1`, `w2 = 1/2` and zero
anharmonic residual, the code (which hardcodes `fnmrms = 2.0` in `PC.bind`)
stops at counter 2, although the total energy at counter 1 already exceeds
the claim's threshold `1 * 1 * 0.75`. -/
theorem C7_counterexample :
    pcPass dvC7 (1/2) (pcNmd 1) (pcThr 1) 1 1 10 = some 2 ∧
    ¬ pcClaimStopPos dvC7 (1/2) (pcNmd 1) (1 * 1 * (3/4)) 2 := by
  constructor
  · with_unfolding_all rfl
  · intro h
    have h1 := h.2 1 (by omega) (by omega)
    apply h1
    rw [pcTotE]
    norm_num [dvC7, pcNmd, pcFnmrms, qpow]

/-- C7 (amended): `PC.step`, for every non-skipped mode, performs exactly one
displacement pass per sign with no convergence loop, stopping each pass at
the first displacement where the total energy `dv + 0.5*w2*q^2` exceeds
`nmevib_i * 2.0 * 0.75` with displacement step `2.0 * nmrms_i` (`PC.bind`
hardcodes `self.fnmrms = 2.0`, overriding the configured fraction of the
harmonic RMS displacement), then fits a quadratic `a*q^2 + b*q + c` to the
sampled data and records the corrected frequency-squared `w2pc[i] = 2*a`
and the equilibrium shift proportional to `-b/(2a)` along the mode vector. -/
theorem C7_pc_step_amended (dv : ℤ → ℚ) (w2 nmrms nmevib : ℚ)
    (fit : List (ℚ × ℚ) → ℚ × ℚ × ℚ) (fuel : ℕ) (res : ℚ × ℚ)
    (h : pcStepMode dv w2 nmrms nmevib fit fuel = some res) :
    pcThr nmevib = nmevib * 2 * (3/4) ∧
    pcNmd nmrms = 2 * nmrms ∧
    ∃ cpos cneg,
      pcPass dv w2 (pcNmd nmrms) (pcThr nmevib) 1 1 fuel = some cpos ∧
      pcThr nmevib < pcTotE dv w2 (pcNmd nmrms) cpos ∧
      (∀ c', 1 ≤ c' → c' < cpos → ¬ pcThr nmevib < pcTotE dv w2 (pcNmd nmrms) c') ∧
      pcPass dv w2 (pcNmd nmrms) (pcThr nmevib) (-1) (-1) fuel = some cneg ∧
      pcThr nmevib < pcTotE dv w2 (pcNmd nmrms) cneg ∧
      (∀ c', c' ≤ -1 → cneg < c' → ¬ pcThr nmevib < pcTotE dv w2 (pcNmd nmrms) c') ∧
      res = (2 * (fit [((0 : ℚ), (0 : ℚ)),
                      (pcNmd nmrms * cpos, dv cpos),
                      (pcNmd nmrms * cneg, dv cneg)]).1,
             -(fit [((0 : ℚ), (0 : ℚ)),
                    (pcNmd nmrms * cpos, dv cpos),
                    (pcNmd nmrms * cneg, dv cneg)]).2.1 /
               (fit [((0 : ℚ), (0 : ℚ)),
                     (pcNmd nmrms * cpos, dv cpos),
                     (pcNmd nmrms * cneg, dv cneg)]).1 / 2) := by
  refine ⟨by rw [pcThr, pcFnmrms], by rw [pcNmd, pcFnmrms], ?_⟩
  rw [pcStepMode] at h
  cases hpos : pcPass dv w2 (pcNmd nmrms) (pcThr nmevib) 1 1 fuel with
  | none => rw [hpos] at h; cases h
  | some cpos =>
    rw [hpos] at h
    cases hneg : pcPass dv w2 (pcNmd nmrms) (pcThr nmevib) (-1) (-1) fuel with
    | none => rw [hneg] at h; cases h
    | some cneg =>
      rw [hneg] at h
      simp only [Option.some.injEq] at h
      obtain ⟨hc1, _, hfirst1⟩ := pcPass_pos_spec dv w2 (pcNmd nmrms) (pcThr nmevib) fuel 1 cpos hpos
      obtain ⟨hc2, _, hfirst2⟩ := pcPass_neg_spec dv w2 (pcNmd nmrms) (pcThr nmevib) fuel (-1) cneg hneg
      exact ⟨cpos, cneg, rfl, hc1, hfirst1, rfl, hc2, hfirst2, h.symm⟩

/-- Quadratic-fit oracle used by the C7 witness: a constant oracle returning
the coefficient triple `(1, 0, 0)`. -/
def fit7 : List (ℚ × ℚ) → ℚ × ℚ × ℚ := fun _ => (1, 0, 0)

/-- C7 (witness): the amended statement instantiated on the concrete system
of the counterexample with a constant quadratic-fit oracle. -/
theorem C7_pc_step_witness :
    pcThr 1 = 1 * 2 * (3/4) ∧
    pcNmd 1 = 2 * 1 ∧
    ∃ cpos cneg,
      pcPass dvC7 (1/2) (pcNmd 1) (pcThr 1) 1 1 10 = some cpos ∧
      pcThr 1 < pcTotE dvC7 (1/2) (pcNmd 1) cpos ∧
      (∀ c', 1 ≤ c' → c' < cpos → ¬ pcThr 1 < pcTotE dvC7 (1/2) (pcNmd 1) c') ∧
      pcPass dvC7 (1/2) (pcNmd 1) (pcThr 1) (-1) (-1) 10 = some cneg ∧
      pcThr 1 < pcTotE dvC7 (1/2) (pcNmd 1) cneg ∧
      (∀ c', c' ≤ -1 → cneg < c' → ¬ pcThr 1 < pcTotE dvC7 (1/2) (pcNmd 1) c') ∧
      ((2 : ℚ), (0 : ℚ)) = (2 * (fit7 [((0 : ℚ), (0 : ℚ)),
                      (pcNmd 1 * cpos, dvC7 cpos),
                      (pcNmd 1 * cneg, dvC7 cneg)]).1,
             -(fit7 [((0 : ℚ), (0 : ℚ)),
                    (pcNmd 1 * cpos, dvC7 cpos),
                    (pcNmd 1 * cneg, dvC7 cneg)]).2.1 /
               (fit7 [((0 : ℚ), (0 : ℚ)),
                     (pcNmd 1 * cpos, dvC7 cpos),
                     (pcNmd 1 * cneg, dvC7 cneg)]).1 / 2) :=
  C7_pc_step_amended dvC7 (1/2) 1 1 fit7 10 (2, 0) (by with_unfolding_all rfl)

/- ===================== C9 ===================== -/

/-- C9: in the MP2 correction loop of `VSCFSolver.step`, the mean-field part
of the matrix element accumulates via the self-assignment
`matelmft += matelmft` starting from `0.0`, so for every pair of manifold
states `matelmft` is identically zero and the perturbative matrix element
`matel` equals the pure coupling part `matelcpl` alone -- whatever the
computed `matel3` mean-field terms are, they never contribute. -/
theorem C9_matelmft_vanishes (inms : List ℕ) (cplContrib matel3 : ℕ → ℚ) :
    (mp2MatelLoop inms cplContrib matel3).2 = 0 ∧
    mp2Matel inms cplContrib matel3 = (mp2MatelLoop inms cplContrib matel3).1 := by
  have h2 : (mp2MatelLoop inms cplContrib matel3).2 = 0 := by
    rw [mp2MatelLoop, mp2MatelLoop_snd inms cplContrib matel3 (0, 0)]
    norm_num
  exact ⟨h2, by rw [mp2Matel, h2, sub_zero]⟩

/- ===================== C10 ===================== -/

/-- C10: when the supplied dynamical matrix is empty (size 0), `IMF.bind`
(inherited by `PC`, `VSCFMapper` and `VSCFSolver`, whose `bind` methods all
call it) silently substitutes an all-zero `(3N) x (3N)` matrix and proceeds
without raising; the size-mismatch `ValueError` is raised exactly when a
non-empty matrix's size differs from `(3N)^2`; a matching size is kept. -/
theorem C10_bind_dynmat (nq : ℕ) :
    imfBindDynmat nq [] = .ok (List.replicate (nq * nq) 0) ∧
    (∀ l : List ℚ, l ≠ [] → l.length ≠ nq * nq →
      imfBindDynmat nq l =
        .error ("Force constant matrix size does not match system size")) ∧
    (∀ l : List ℚ, l.length = nq * nq → imfBindDynmat nq l = .ok l) := by
  refine ⟨?_, ?_, ?_⟩
  · by_cases h : nq = 0
    · subst h
      simp [imfBindDynmat]
    · have hnz : nq * nq ≠ 0 := Nat.mul_ne_zero h h
      rw [imfBindDynmat]
      rw [if_pos (by simpa using Ne.symm hnz)]
      rw [if_pos (by simp)]
  · intro l hne hlen
    rw [imfBindDynmat, if_pos hlen, if_neg (by simpa using hne)]
  · intro l hlen
    rw [imfBindDynmat, if_neg (by simp [hlen])]

/-- C10 (witness): a concrete non-empty, wrongly-sized matrix is rejected
and the empty matrix for a 2-atom-like system is zero-filled. -/
theorem C10_bind_dynmat_witness :
    ([1, 2, 3] : List ℚ) ≠ [] ∧ ([1, 2, 3] : List ℚ).length ≠ 2 * 2 ∧
    imfBindDynmat 2 [1, 2, 3] =
      .error ("Force constant matrix size does not match system size") :=
  ⟨by simp, by simp, (C10_bind_dynmat 2).2.1 [1, 2, 3] (by simp) (by simp)⟩

/- ===================== C8 : MP2 reduced state manifold ===================== -/

/-- Number of basis states of a mode whose excitation energy relative to its
ground state is below the threshold `nkbt * temp` (`nm.py` 1199-1205):
`nbasiscurr` counts the `ibasis < nbasis` with
`evals[inm][ibasis] - evals[inm][0] < nkbt * temp`, and the mode then
contributes `range(nbasiscurr)`. -/
def nbasisCurr (ev : List ℚ) (nbasis : ℕ) (thr : ℚ) : ℕ :=
  ((List.range nbasis).filter (fun i => decide (ev.getD i 0 - ev.getD 0 0 < thr))).length

/-- Excitation energy of a composite state relative to the all-ground state
(`nm.py` 1224-1225): the sum over the modes merged so far of
`evals[inms[jnm]][state[jnm]] - evals[inms[jnm]][0]`; `evs` lists the
eigenvalue tables of the included modes in order and `zip` truncates to the
modes the partial state already covers. -/
def stateExc (evs : List (List ℚ)) (st : List ℕ) : ℚ :=
  ((evs.zip st).map (fun p => p.1.getD p.2 0 - p.1.getD 0 0)).sum

/-- One merge pass of the manifold enumeration (`nm.py` 1213-1229): every kept
state is extended by each feasible basis index of the next mode
(`itertools.product`), and a state is kept only when its excitation energy
does not exceed the threshold (the code skips states with `e > nkbt*temp`). -/
def mp2MergePass (evs : List (List ℚ)) (thr : ℚ) (sred : List (List ℕ)) (nk : ℕ) :
    List (List ℕ) :=
  (sred.flatMap (fun st => (List.range nk).map (fun x => st ++ [x]))).filter
    (fun st => decide (stateExc evs st ≤ thr))

/-- Tail of the manifold enumeration over the remaining modes, collecting after
each merge pass the overflow diagnostic Boolean
(`if len(sred) > 1e3: print 'TOO MANY ...'`, `nm.py` 1231-1234). -/
def mp2EnumAux (evs : List (List ℚ)) (nbasis : ℕ) (thr : ℚ) :
    List (List ℚ) → List (List ℕ) × List Bool → List (List ℕ) × List Bool
  | [], acc => acc
  | ek :: rest2, acc =>
    mp2EnumAux evs nbasis thr rest2
      ((mp2MergePass evs thr acc.1 (nbasisCurr ek nbasis thr)),
        acc.2 ++ [decide (1000 < (mp2MergePass evs thr acc.1 (nbasisCurr ek nbasis thr)).length)])

/-- Enumeration of the reduced MP2 state manifold of `VSCFSolver.step`
(`nm.py` 1196-1239): mode 0 contributes the singleton states
`range(nbasiscurr)`; every further mode is merged in by `mp2MergePass`, with
the per-pass overflow diagnostics collected as Booleans. -/
def mp2Enum (evs : List (List ℚ)) (nbasis : ℕ) (thr : ℚ) :
    List (List ℕ) × List Bool :=
  match evs with
  | [] => ([], [])
  | e0 :: rest =>
    mp2EnumAux evs nbasis thr rest
      ((List.range (nbasisCurr e0 nbasis thr)).map (fun x => [x]), [])

/-- `nstates = len(sred)` (`nm.py` 1236): the number of states the VSCF and
MP2 loops subsequently run over, set unconditionally to the full manifold
size. -/
def mp2NStates (evs : List (List ℚ)) (nbasis : ℕ) (thr : ℚ) : ℕ :=
  (mp2Enum evs nbasis thr).1.length

/-- The index range of the MP2 outer loop (`for istate in range(nstates)`,
`nm.py` 1416). -/
def mp2StateIndices (evs : List (List ℚ)) (nbasis : ℕ) (thr : ℚ) : List ℕ :=
  List.range (mp2NStates evs nbasis thr)

/-- The behaviour claim C8 asserts for an oversized manifold: the MP2
correction is skipped (no state iterated) or truncated (at most the cap). -/
def mp2ClaimReduced (evs : List (List ℚ)) (nbasis : ℕ) (thr : ℚ) : Prop :=
  mp2StateIndices evs nbasis thr = [] ∨ (mp2StateIndices evs nbasis thr).length ≤ 1000

/-- Two identical modes with 32 feasible basis states each: the merged
manifold has `32 * 32 = 1024 > 1000` states. -/
def evs8 : List (List ℚ) := [List.replicate 32 0, List.replicate 32 0]

theorem mp2EnumAux_spec (evs : List (List ℚ)) (nbasis : ℕ) (thr : ℚ) :
    ∀ (rest : List (List ℚ)) (acc : List (List ℕ) × List Bool),
      (mp2EnumAux evs nbasis thr rest acc).2.length = acc.2.length + rest.length ∧
      (rest ≠ [] → (mp2EnumAux evs nbasis thr rest acc).2.getLast? =
        some (decide (1000 < (mp2EnumAux evs nbasis thr rest acc).1.length))) ∧
      (rest ≠ [] → ∀ st ∈ (mp2EnumAux evs nbasis thr rest acc).1,
        stateExc evs st ≤ thr) := by
  intro rest
  induction rest with
  | nil =>
    intro acc
    refine ⟨by simp [mp2EnumAux], fun hr => absurd rfl hr, fun hr => absurd rfl hr⟩
  | cons ek rest2 ih =>
    intro acc
    rw [mp2EnumAux]
    by_cases h2 : rest2 = []
    · subst h2
      simp only [mp2EnumAux]
      refine ⟨by simp, fun _ => ?_, fun _ => ?_⟩
      · simp
      · intro st hst
        have := List.of_mem_filter hst
        simpa using this
    · obtain ⟨hlen, hlast, hmem⟩ := ih
        ((mp2MergePass evs thr acc.1 (nbasisCurr ek nbasis thr)),
          acc.2 ++ [decide (1000 < (mp2MergePass evs thr acc.1 (nbasisCurr ek nbasis thr)).length)])
      refine ⟨?_, fun _ => hlast h2, fun _ => hmem h2⟩
      rw [hlen]
      dsimp only
      simp only [List.length_append, List.length_singleton, List.length_cons,
        List.length_nil]
      omega

set_option maxRecDepth 400000 in
/-- C8 (counterexample): with two modes of 32 feasible basis states each and
an energy threshold admitting every combination, the enumerated manifold has
1024 states, the final merge pass reports the overflow diagnostic -- and the
MP2 loop range still covers all 1024 states: the correction is neither
skipped nor truncated to the 1000-state cap. -/
theorem C8_counterexample :
    1000 < mp2NStates evs8 32 1 ∧
    (mp2Enum evs8 32 1).2 = [true] ∧
    ¬ mp2ClaimReduced evs8 32 1 := by
  have hn : mp2NStates evs8 32 1 = 1024 := by with_unfolding_all rfl
  refine ⟨by rw [hn]; norm_num, by with_unfolding_all rfl, ?_⟩
  intro hred
  rcases hred with h | h
  · rw [mp2StateIndices, hn] at h
    simp [List.range_eq_nil] at h
  · rw [mp2StateIndices, hn] at h
    simp [List.length_range] at h

/-- C8 (amended): when a merge pass of the MP2 manifold enumeration in
`VSCFSolver.step` leaves more than 1000 states, the solver prints the
explicit `TOO MANY (>1e3) POSSIBLE GLOBAL VIBRATIONAL STATES` diagnostic
(one overflow check per merge pass, so with at least two modes the final
manifold's oversize is reported on the last pass) -- but the MP2 correction
is then computed over the full oversized manifold: `nstates = len(sred)` and
the correction loops iterate over all of `range(nstates)`, every enumerated
state satisfying the energy criterion; the correction is never skipped or
truncated, only flagged. -/
theorem C8_manifold_overflow_amended (evs : List (List ℚ)) (nbasis : ℕ) (thr : ℚ)
    (e0 : List ℚ) (rest : List (List ℚ))
    (hevs : evs = e0 :: rest) (hrest : rest ≠ []) :
    (mp2Enum evs nbasis thr).2.length = rest.length ∧
    (mp2Enum evs nbasis thr).2.getLast? =
      some (decide (1000 < mp2NStates evs nbasis thr)) ∧
    mp2StateIndices evs nbasis thr = List.range ((mp2Enum evs nbasis thr).1.length) ∧
    (∀ st ∈ (mp2Enum evs nbasis thr).1, stateExc evs st ≤ thr) := by
  subst hevs
  obtain ⟨hlen, hlast, hmem⟩ := mp2EnumAux_spec (e0 :: rest) nbasis thr rest
    ((List.range (nbasisCurr e0 nbasis thr)).map (fun x => [x]), [])
  have henum : mp2Enum (e0 :: rest) nbasis thr =
      mp2EnumAux (e0 :: rest) nbasis thr rest
        ((List.range (nbasisCurr e0 nbasis thr)).map (fun x => [x]), []) := rfl
  refine ⟨?_, ?_, rfl, ?_⟩
  · rw [henum, hlen]; simp
  · rw [henum]; exact hlast hrest
  · rw [henum]; exact hmem hrest

/-- C8 (witness): the amended statement instantiated on the concrete
1024-state manifold of the counterexample. -/
theorem C8_manifold_overflow_witness :
    (mp2Enum evs8 32 1).2.length = [List.replicate 32 (0 : ℚ)].length ∧
    (mp2Enum evs8 32 1).2.getLast? =
      some (decide (1000 < mp2NStates evs8 32 1)) ∧
    mp2StateIndices evs8 32 1 = List.range ((mp2Enum evs8 32 1).1.length) ∧
    (∀ st ∈ (mp2Enum evs8 32 1).1, stateExc evs8 st ≤ 1) :=
  C8_manifold_overflow_amended evs8 32 1 (List.replicate 32 0)
    [List.replicate 32 0] rfl (by simp)

/- ===================== C6 : VSCFSolver.step artifact loading ===================== -/

/-- The persisted artifact store the Mapper leaves on disk and the Solver
reads back (`nm.py` 694-772 for the writes, 1056-1101 for the reads):
`modes.dat`, `nptsmin.dat`/`nptsmax.dat`, `potoffset.dat`, one
`vindep.<i>.dat` per mode and one `vcoupled.<i>.<j>.dat` per ordered pair;
an `Option.none` field is an absent file. -/
structure VFS where
  modes : Option (List ℕ)
  nptsmin : Option (List ℤ)
  nptsmax : Option (List ℤ)
  potoffset : Option ℚ
  vindep : ℕ → Option (List (ℚ × ℚ))
  vcoupled : ℕ → ℕ → Option (List (List ℚ))

/-- Everything `VSCFSolver.step` has loaded once its init phase succeeds. -/
structure VSCFData where
  inms : List ℕ
  nmin : List ℤ
  nmax : List ℤ
  v0 : ℚ
  vindeps : List (List (ℚ × ℚ))
  vcoupleds : List (List (List ℚ))

/-- Modelled from the spec: `softexit.trigger` is defined in
`ipi/utils/softexit.py`, which is not part of these sources; the spec states
that a missing persisted artifact is fatal and surfaced immediately
(`MissingArtifact` in section 7, and `the Solver must fail fast, not silently
default` in section 5), so the trigger is modelled as an immediate error
termination carrying the printed message. -/
def softexitTrigger (α : Type) (msg : String) : Except String α := .error msg

/-- Sequential early-exit traversal: load every element, stopping at the
first failure, exactly like the Python `for` loops over `inms` whose bodies
terminate the run on a missing file. -/
def exMapM (f : α → Except String β) : List α → Except String (List β)
  | [] => .ok []
  | a :: t =>
    match f a with
    | .error e => .error e
    | .ok b =>
      match exMapM f t with
      | .error e => .error e
      | .ok bs => .ok (b :: bs)

/-- The ordered unique mode pairs `(inm, jnm)` with `jnm > inm`, in the
iteration order of the nested loops of `nm.py` 1092-1099. -/
def vscfPairs (inms : List ℕ) : List (ℕ × ℕ) :=
  inms.flatMap (fun i => inms.filterMap (fun j => if i < j then some (i, j) else none))

/-- Load of one independent-mode potential (`nm.py` 1081-1088):
`vindep.<inm>.dat` if it exists, else `softexit.trigger`. -/
def vindepLoad (fs : VFS) (inm : ℕ) : Except String (List (ℚ × ℚ)) :=
  match fs.vindep inm with
  | some v => .ok v
  | none => softexitTrigger (List (ℚ × ℚ))
      ("ERROR : Indep mode potential for mode " ++ toString inm ++
        " not available: vindep." ++ toString inm ++ ".dat. Exiting.")

/-- Load of one pair-coupling grid (`nm.py` 1092-1099):
`vcoupled.<inm>.<jnm>.dat` if it exists, else `softexit.trigger`. -/
def vcoupledLoad (fs : VFS) (p : ℕ × ℕ) : Except String (List (List ℚ)) :=
  match fs.vcoupled p.1 p.2 with
  | some v => .ok v
  | none => softexitTrigger (List (List ℚ))
      ("ERROR : Coupling potential for modes " ++ toString p.1 ++ " , " ++
        toString p.2 ++ " not available. Exiting.")

/-- Artifact-loading phase of `VSCFSolver.step` (`nm.py` 1056-1101, two-body
path): mode list, sampling bounds, potential offset, independent potentials
and pair couplings are loaded in program order, terminating at the first
absent artifact -- via `softexit.trigger` for the `os.path.exists`-guarded
loads, and via the `IOError` that `np.loadtxt` raises for `nptsmax.dat`,
whose existence is never checked (only `nptsmin.dat` is, `nm.py` 1065). -/
def vscfSolverLoad (fs : VFS) : Except String VSCFData :=
  match fs.modes with
  | none => softexitTrigger VSCFData
      ("ERROR : Indices for for vibr modes not available. Exiting.")
  | some inms =>
    match fs.nptsmin with
    | none => softexitTrigger VSCFData
        ("ERROR : Indices for for vibr modes not available. Exiting.")
    | some nmin =>
      match fs.nptsmax with
      | none => .error ("IOError : nptsmax.dat not found")
      | some nmax =>
        match fs.potoffset with
        | none => softexitTrigger VSCFData
            ("ERROR : Potential offset v0 not available. Exiting.")
        | some v0 =>
          match exMapM (vindepLoad fs) inms with
          | .error e => .error e
          | .ok vindeps =>
            match exMapM (vcoupledLoad fs) (vscfPairs inms) with
            | .error e => .error e
            | .ok vcoupleds => .ok ⟨inms, nmin, nmax, v0, vindeps, vcoupleds⟩

theorem exMapM_error_of_mem (f : α → Except String β) :
    ∀ (l : List α) (x : α), x ∈ l → (∃ e, f x = .error e) →
      ∃ e2, exMapM f l = .error e2 := by
  intro l
  induction l with
  | nil => intro x hx; simp at hx
  | cons a t ih =>
    intro x hx ⟨e, he⟩
    rw [exMapM]
    rcases List.mem_cons.mp hx with hx | hx
    · subst hx
      rw [he]
      exact ⟨e, rfl⟩
    · cases hfa : f a with
      | error e3 => exact ⟨e3, rfl⟩
      | ok b =>
        obtain ⟨e2, he2⟩ := ih x hx ⟨e, he⟩
        rw [he2]
        exact ⟨e2, rfl⟩

theorem exMapM_ok_forall (f : α → Except String β) :
    ∀ (l : List α) (ys : List β), exMapM f l = .ok ys →
      ∀ x ∈ l, ∃ y, f x = .ok y := by
  intro l
  induction l with
  | nil => intro ys _ x hx; simp at hx
  | cons a t ih =>
    intro ys h x hx
    rw [exMapM] at h
    cases hfa : f a with
    | error e => rw [hfa] at h; cases h
    | ok b =>
      rw [hfa] at h
      cases ht : exMapM f t with
      | error e => rw [ht] at h; cases h
      | ok bs =>
        rcases List.mem_cons.mp hx with hx | hx
        · subst hx; exact ⟨b, hfa⟩
        · exact ih bs ht x hx

theorem vscfSolverLoad_eq (fs : VFS) (inms : List ℕ) (nmin nmax : List ℤ) (v0 : ℚ)
    (hm : fs.modes = some inms) (h1 : fs.nptsmin = some nmin)
    (h2 : fs.nptsmax = some nmax) (h3 : fs.potoffset = some v0) :
    vscfSolverLoad fs =
      match exMapM (vindepLoad fs) inms with
      | .error e => .error e
      | .ok vindeps =>
        match exMapM (vcoupledLoad fs) (vscfPairs inms) with
        | .error e => .error e
        | .ok vcoupleds => .ok ⟨inms, nmin, nmax, v0, vindeps, vcoupleds⟩ := by
  rw [vscfSolverLoad, hm, h1, h2, h3]

/-- C6: when `VSCFSolver.step` starts and any required persisted artifact is
absent -- the mode list `modes.dat`, the bounds `nptsmin.dat`/`nptsmax.dat`,
the offset `potoffset.dat`, any `vindep.<i>.dat` or any
`vcoupled.<i>.<j>.dat` -- the load phase terminates with an error (the
spec's `MissingArtifact`), and the solver proceeds only when every artifact
is present: a successful load returns exactly the stored artifacts, never
default grids. -/
theorem C6_missing_artifact (fs : VFS) :
    (fs.modes = none → ∃ e, vscfSolverLoad fs = .error e) ∧
    (fs.nptsmin = none → ∃ e, vscfSolverLoad fs = .error e) ∧
    (fs.nptsmax = none → ∃ e, vscfSolverLoad fs = .error e) ∧
    (fs.potoffset = none → ∃ e, vscfSolverLoad fs = .error e) ∧
    (∀ inms, fs.modes = some inms → ∀ i ∈ inms, fs.vindep i = none →
      ∃ e, vscfSolverLoad fs = .error e) ∧
    (∀ inms, fs.modes = some inms → ∀ p ∈ vscfPairs inms, fs.vcoupled p.1 p.2 = none →
      ∃ e, vscfSolverLoad fs = .error e) ∧
    (∀ d, vscfSolverLoad fs = .ok d →
      fs.modes = some d.inms ∧ fs.nptsmin = some d.nmin ∧
      fs.nptsmax = some d.nmax ∧ fs.potoffset = some d.v0 ∧
      (∀ i ∈ d.inms, ∃ v, fs.vindep i = some v) ∧
      (∀ p ∈ vscfPairs d.inms, ∃ v, fs.vcoupled p.1 p.2 = some v)) := by
  refine ⟨?_, ?_, ?_, ?_, ?_, ?_, ?_⟩
  · intro h
    rw [vscfSolverLoad, h]
    exact ⟨_, rfl⟩
  · intro h
    rw [vscfSolverLoad, h]
    cases fs.modes with
    | none => exact ⟨_, rfl⟩
    | some inms => exact ⟨_, rfl⟩
  · intro h
    rw [vscfSolverLoad, h]
    cases fs.modes with
    | none => exact ⟨_, rfl⟩
    | some inms =>
      cases fs.nptsmin with
      | none => exact ⟨_, rfl⟩
      | some nmin => exact ⟨_, rfl⟩
  · intro h
    rw [vscfSolverLoad, h]
    cases fs.modes with
    | none => exact ⟨_, rfl⟩
    | some inms =>
      cases fs.nptsmin with
      | none => exact ⟨_, rfl⟩
      | some nmin =>
        cases fs.nptsmax with
        | none => exact ⟨_, rfl⟩
        | some nmax => exact ⟨_, rfl⟩
  · intro inms hm i hi hv
    cases h1 : fs.nptsmin with
    | none => rw [vscfSolverLoad, hm, h1]; exact ⟨_, rfl⟩
    | some nmin =>
      cases h2 : fs.nptsmax with
      | none => rw [vscfSolverLoad, hm, h1, h2]; exact ⟨_, rfl⟩
      | some nmax =>
        cases h3 : fs.potoffset with
        | none => rw [vscfSolverLoad, hm, h1, h2, h3]; exact ⟨_, rfl⟩
        | some v0 =>
          obtain ⟨e, he⟩ := exMapM_error_of_mem (vindepLoad fs) inms i hi
            ⟨_, by rw [vindepLoad, hv]; rfl⟩
          rw [vscfSolverLoad_eq fs inms nmin nmax v0 hm h1 h2 h3, he]
          exact ⟨e, rfl⟩
  · intro inms hm p hp hv
    cases h1 : fs.nptsmin with
    | none => rw [vscfSolverLoad, hm, h1]; exact ⟨_, rfl⟩
    | some nmin =>
      cases h2 : fs.nptsmax with
      | none => rw [vscfSolverLoad, hm, h1, h2]; exact ⟨_, rfl⟩
      | some nmax =>
        cases h3 : fs.potoffset with
        | none => rw [vscfSolverLoad, hm, h1, h2, h3]; exact ⟨_, rfl⟩
        | some v0 =>
          rw [vscfSolverLoad_eq fs inms nmin nmax v0 hm h1 h2 h3]
          cases hvi : exMapM (vindepLoad fs) inms with
          | error e => exact ⟨e, rfl⟩
          | ok vs =>
            obtain ⟨e, he⟩ := exMapM_error_of_mem (vcoupledLoad fs) (vscfPairs inms) p hp
              ⟨_, by rw [vcoupledLoad, hv]; rfl⟩
            rw [he]
            exact ⟨e, rfl⟩
  · intro d hd
    cases hm : fs.modes with
    | none =>
      rw [vscfSolverLoad, hm] at hd
      cases hd
    | some inms =>
      cases hn1 : fs.nptsmin with
      | none =>
        rw [vscfSolverLoad, hm, hn1] at hd
        cases hd
      | some nmin =>
        cases hn2 : fs.nptsmax with
        | none =>
          rw [vscfSolverLoad, hm, hn1, hn2] at hd
          cases hd
        | some nmax =>
          cases hp : fs.potoffset with
          | none =>
            rw [vscfSolverLoad, hm, hn1, hn2, hp] at hd
            cases hd
          | some v0 =>
            rw [vscfSolverLoad_eq fs inms nmin nmax v0 hm hn1 hn2 hp] at hd
            cases hvi : exMapM (vindepLoad fs) inms with
            | error e => rw [hvi] at hd; cases hd
            | ok vs =>
              rw [hvi] at hd
              cases hvc : exMapM (vcoupledLoad fs) (vscfPairs inms) with
              | error e => rw [hvc] at hd; cases hd
              | ok cs =>
                rw [hvc] at hd
                have hdd := Except.ok.inj hd
                subst hdd
                refine ⟨rfl, rfl, rfl, rfl, ?_, ?_⟩
                · intro i hi
                  obtain ⟨y, hy⟩ := exMapM_ok_forall (vindepLoad fs) inms vs hvi i hi
                  cases hfi : fs.vindep i with
                  | some v => exact ⟨v, rfl⟩
                  | none => rw [vindepLoad, hfi] at hy; cases hy
                · intro p hp2
                  obtain ⟨y, hy⟩ := exMapM_ok_forall (vcoupledLoad fs) (vscfPairs inms) cs hvc p hp2
                  cases hfp : fs.vcoupled p.1 p.2 with
                  | some v => exact ⟨v, rfl⟩
                  | none => rw [vcoupledLoad, hfp] at hy; cases hy

/-- Artifact store for the C6 witness: the mode list and bounds exist but
`vindep.0.dat` is absent. -/
def vfs6 : VFS :=
  ⟨some [0, 1], some [1, 1], some [1, 1], some 0, fun _ => none, fun _ _ => none⟩

/-- C6 (witness): the missing-independent-potential branch instantiated on a
store that lacks `vindep.0.dat`. -/
theorem C6_missing_artifact_witness :
    vfs6.modes = some [0, 1] ∧ (0 : ℕ) ∈ ([0, 1] : List ℕ) ∧ vfs6.vindep 0 = none ∧
    ∃ e, vscfSolverLoad vfs6 = .error e :=
  ⟨rfl, by simp, rfl,
    (C6_missing_artifact vfs6).2.2.2.2.1 [0, 1] rfl 0 (by simp) rfl⟩

/- ===================== C4 : VSCFMapper.step pair mapping ===================== -/

/-- Grid value at row `i`, column `j` of the 2D sampling loop of
`VSCFMapper.step` (`nm.py` 852-868): when the mode-`i` displacement vanishes
(`(-nptsmin[inm]+i-2) == 0`) the stored 1D slice of mode `j` is reused
(`vis[rjnm][j]`); when the mode-`j` displacement vanishes, the slice of mode
`i`; otherwise the true potential is evaluated at the doubly displaced
configuration, recorded here in the second component. -/
def vtotEntry (nptsminI nptsminJ : ℤ) (visI visJ : ℕ → ℚ) (pot : ℚ → ℚ → ℚ)
    (dnmi dnmj : ℚ) (i j : ℕ) : ℚ × Option (ℚ × ℚ) :=
  if (-nptsminI + i - 2 : ℤ) = 0 then (visJ j, none)
  else if (-nptsminJ + j - 2 : ℤ) = 0 then (visI i, none)
  else
    (pot ((-(nptsminI : ℚ) + i - 2) * dnmi) ((-(nptsminJ : ℚ) + j - 2) * dnmj),
      some ((-(nptsminI : ℚ) + i - 2) * dnmi, (-(nptsminJ : ℚ) + j - 2) * dnmj))

/-- The flattened sampled grid `vtots` of one mode pair, in the row-major
order `k = i * (npts[jnm]+4) + j` of `nm.py` 852-868, paired with the list
of configurations at which the true potential was evaluated (exactly the
off-axis points). -/
def mapPairGrid (nptsI nptsJ : ℕ) (nptsminI nptsminJ : ℤ) (visI visJ : ℕ → ℚ)
    (pot : ℚ → ℚ → ℚ) (dnmi dnmj : ℚ) : List ℚ × List (ℚ × ℚ) :=
  (((List.range (nptsI + 4)).flatMap
    (fun i => (List.range (nptsJ + 4)).map
      (fun j => vtotEntry nptsminI nptsminJ visI visJ pot dnmi dnmj i j))).map Prod.fst,
  ((List.range (nptsI + 4)).flatMap
    (fun i => (List.range (nptsJ + 4)).map
      (fun j => vtotEntry nptsminI nptsminJ visI visJ pot dnmi dnmj i j))).filterMap Prod.snd)

/-- `np.linspace(a, b, n)`: the `k`-th of `n` evenly spaced points from `a`
to `b` inclusive. -/
def linspaceQ (a b : ℚ) (n k : ℕ) : ℚ := a + (b - a) * k / ((n : ℚ) - 1)

/-- Integration grid along one mode (`nm.py` 897-898):
`np.linspace(-nptsmin*dnm, nptsmax*dnm, self.nint)`. -/
def mapIgrid (nptsmin nptsmax : ℤ) (dnm : ℚ) (nint k : ℕ) : ℚ :=
  linspaceQ (-(nptsmin : ℚ) * dnm) ((nptsmax : ℚ) * dnm) nint k

/-- Contents of the pair's grid file `vcoupled.<inm>.<jnm>.dat`
(`nm.py` 916-920): the coupling correction
`vtspl(qi,qj) - vtspl(qi,0) - vtspl(0,qj) + vtspl(0,0)` of the fitted
interpolant, tabulated on the regular `nint x nint` integration grid (rows
indexed by the mode-`j` grid index `ijnm`, columns by `iinm`). -/
def vcoupledFile (f : ℚ → ℚ → ℚ) (nptsminI nptsmaxI nptsminJ nptsmaxJ : ℤ)
    (dnmi dnmj : ℚ) (nint : ℕ) : List (List ℚ) :=
  (List.range nint).map (fun jj => (List.range nint).map (fun ii =>
    f (mapIgrid nptsminI nptsmaxI dnmi nint ii) (mapIgrid nptsminJ nptsmaxJ dnmj nint jj)
      - f (mapIgrid nptsminI nptsmaxI dnmi nint ii) 0
      - f 0 (mapIgrid nptsminJ nptsmaxJ dnmj nint jj)
      + f 0 0))

/-- One unique pair `(inm, jnm)`, `jnm > inm`, of `VSCFMapper.step`
(`nm.py` 838-920): if the pair's grid file already exists on disk nothing is
sampled or written (`os.path.exists(potfile)` guard); otherwise the 2D grid
is sampled and the coupling correction is written.  The bicubic `interp2d`
fit is the oracle `fit`, mapping the sampled `vtots` to an interpolant. -/
def mapPairStep (cached : Bool) (nptsI nptsJ : ℕ)
    (nptsminI nptsmaxI nptsminJ nptsmaxJ : ℤ) (visI visJ : ℕ → ℚ)
    (pot : ℚ → ℚ → ℚ) (fit : List ℚ → ℚ → ℚ → ℚ) (dnmi dnmj : ℚ) (nint : ℕ) :
    Option (List ℚ × List (ℚ × ℚ) × List (List ℚ)) :=
  if cached then none
  else
    some ((mapPairGrid nptsI nptsJ nptsminI nptsminJ visI visJ pot dnmi dnmj).1,
      (mapPairGrid nptsI nptsJ nptsminI nptsminJ visI visJ pot dnmi dnmj).2,
      vcoupledFile (fit (mapPairGrid nptsI nptsJ nptsminI nptsminJ visI visJ pot dnmi dnmj).1)
        nptsminI nptsmaxI nptsminJ nptsmaxJ dnmi dnmj nint)

theorem rangeFlatMap_length {β : Type} (g : ℕ → List β) (nj : ℕ)
    (hg : ∀ i, (g i).length = nj) :
    ∀ ni, ((List.range ni).flatMap g).length = ni * nj := by
  intro ni
  induction ni with
  | zero => simp
  | succ m ih =>
    rw [List.range_succ, List.flatMap_append, List.length_append, ih]
    simp [hg m]
    ring

theorem rangeFlatMap_getD {β : Type} (g : ℕ → List β) (nj : ℕ)
    (hg : ∀ i, (g i).length = nj) (d : β) :
    ∀ (ni i j : ℕ), i < ni → j < nj →
      ((List.range ni).flatMap g).getD (i * nj + j) d = (g i).getD j d := by
  intro ni
  induction ni with
  | zero => intro i j hi _; omega
  | succ m ih =>
    intro i j hi hj
    rw [List.range_succ, List.flatMap_append]
    have hlen : ((List.range m).flatMap g).length = m * nj :=
      rangeFlatMap_length g nj hg m
    rcases Nat.lt_or_ge i m with him | him
    · rw [List.getD_append]
      · exact ih i j him hj
      · rw [hlen]
        calc i * nj + j < i * nj + nj := by omega
        _ ≤ m * nj := by
          have : i + 1 ≤ m := him
          calc i * nj + nj = (i + 1) * nj := by ring
          _ ≤ m * nj := Nat.mul_le_mul_right nj this
    · have him2 : i = m := by omega
      subst him2
      rw [List.getD_append_right]
      · rw [hlen]
        have : i * nj + j - i * nj = j := by omega
        rw [this]
        simp
      · rw [hlen]; omega

theorem rangeMap_getD {β : Type} (h : ℕ → β) (d : β) (n k : ℕ) (hk : k < n) :
    ((List.range n).map h).getD k d = h k := by
  have hk2 : k < ((List.range n).map h).length := by simpa using hk
  rw [List.getD_eq_getElem _ _ hk2]
  simp

theorem vtotEntry_snd_eq (nptsminI nptsminJ : ℤ) (visI visJ : ℕ → ℚ)
    (pot : ℚ → ℚ → ℚ) (dnmi dnmj : ℚ) (i j : ℕ) (q : ℚ × ℚ) :
    (vtotEntry nptsminI nptsminJ visI visJ pot dnmi dnmj i j).2 = some q ↔
      ((-nptsminI + i - 2 : ℤ) ≠ 0 ∧ (-nptsminJ + j - 2 : ℤ) ≠ 0 ∧
        q = ((-(nptsminI : ℚ) + i - 2) * dnmi, (-(nptsminJ : ℚ) + j - 2) * dnmj)) := by
  rw [vtotEntry]
  split_ifs with h1 h2
  · simp [h1]
  · simp [h1, h2]
  · simp [h1, h2, eq_comm]

/-- C4: for a unique mode pair `(inm, jnm)` with `jnm > inm` that is not
already cached on disk, `VSCFMapper.step` builds a 2D sampled grid of size
`(npts_i+4) x (npts_j+4)` (flattened in row-major order
`k = i*(npts_j+4)+j`), reuses the stored 1D potentials for points on either
mode axis and evaluates the true potential exactly at the off-axis points,
and writes to the pair's grid file the coupling correction
`V(q_i,q_j) - V(q_i,0) - V(0,q_j) + V(0,0)` evaluated from the fitted
bicubic interpolant on a regular `nint x nint` integration grid; a cached
pair is skipped entirely. -/
theorem C4_mapper_pair (nptsI nptsJ : ℕ) (nptsminI nptsmaxI nptsminJ nptsmaxJ : ℤ)
    (visI visJ : ℕ → ℚ) (pot : ℚ → ℚ → ℚ) (fit : List ℚ → ℚ → ℚ → ℚ)
    (dnmi dnmj : ℚ) (nint : ℕ) (vtots : List ℚ) (calls : List (ℚ × ℚ))
    (out : List (List ℚ))
    (h : mapPairStep false nptsI nptsJ nptsminI nptsmaxI nptsminJ nptsmaxJ
      visI visJ pot fit dnmi dnmj nint = some (vtots, calls, out)) :
    mapPairStep true nptsI nptsJ nptsminI nptsmaxI nptsminJ nptsmaxJ
      visI visJ pot fit dnmi dnmj nint = none ∧
    vtots.length = (nptsI + 4) * (nptsJ + 4) ∧
    (∀ i j, i < nptsI + 4 → j < nptsJ + 4 →
      vtots.getD (i * (nptsJ + 4) + j) 0 =
        (vtotEntry nptsminI nptsminJ visI visJ pot dnmi dnmj i j).1) ∧
    (∀ q, q ∈ calls ↔ ∃ i j, i < nptsI + 4 ∧ j < nptsJ + 4 ∧
      (-nptsminI + i - 2 : ℤ) ≠ 0 ∧ (-nptsminJ + j - 2 : ℤ) ≠ 0 ∧
      q = ((-(nptsminI : ℚ) + i - 2) * dnmi, (-(nptsminJ : ℚ) + j - 2) * dnmj)) ∧
    out.length = nint ∧
    (∀ row ∈ out, row.length = nint) ∧
    (∀ ii jj, ii < nint → jj < nint →
      (out.getD jj []).getD ii 0 =
        fit vtots (mapIgrid nptsminI nptsmaxI dnmi nint ii)
            (mapIgrid nptsminJ nptsmaxJ dnmj nint jj)
          - fit vtots (mapIgrid nptsminI nptsmaxI dnmi nint ii) 0
          - fit vtots 0 (mapIgrid nptsminJ nptsmaxJ dnmj nint jj)
          + fit vtots 0 0) := by
  rw [mapPairStep] at h
  simp only [Bool.false_eq_true, if_false, Option.some.injEq, Prod.mk.injEq] at h
  obtain ⟨h1, h2, h3⟩ := h
  subst h1
  subst h2
  subst h3
  have hglen : ∀ i2, ((List.range (nptsJ + 4)).map
      (fun j2 => vtotEntry nptsminI nptsminJ visI visJ pot dnmi dnmj i2 j2)).length
      = nptsJ + 4 := fun i2 => by simp
  refine ⟨rfl, ?_, ?_, ?_, ?_, ?_, ?_⟩
  · rw [mapPairGrid]
    simp only [List.length_map]
    rw [rangeFlatMap_length _ (nptsJ + 4) hglen (nptsI + 4)]
  · intro i j hi hj
    rw [mapPairGrid]
    simp only
    have hk : i * (nptsJ + 4) + j <
        (((List.range (nptsI + 4)).flatMap
          (fun i2 => (List.range (nptsJ + 4)).map
            (fun j2 => vtotEntry nptsminI nptsminJ visI visJ pot dnmi dnmj i2 j2))).map
              Prod.fst).length := by
      rw [List.length_map, rangeFlatMap_length _ (nptsJ + 4) hglen (nptsI + 4)]
      calc i * (nptsJ + 4) + j < i * (nptsJ + 4) + (nptsJ + 4) := by omega
      _ = (i + 1) * (nptsJ + 4) := by ring
      _ ≤ (nptsI + 4) * (nptsJ + 4) := Nat.mul_le_mul_right (nptsJ + 4) hi
    rw [List.getD_eq_getElem _ _ hk, List.getElem_map]
    have hk2 : i * (nptsJ + 4) + j <
        ((List.range (nptsI + 4)).flatMap
          (fun i2 => (List.range (nptsJ + 4)).map
            (fun j2 => vtotEntry nptsminI nptsminJ visI visJ pot dnmi dnmj i2 j2))).length := by
      simpa using hk
    rw [← List.getD_eq_getElem _ ((0 : ℚ), (none : Option (ℚ × ℚ))) hk2]
    rw [rangeFlatMap_getD _ (nptsJ + 4) hglen _ (nptsI + 4) i j hi hj]
    rw [rangeMap_getD _ _ _ j hj]
  · intro q
    rw [mapPairGrid]
    simp only
    rw [List.mem_filterMap]
    constructor
    · rintro ⟨e, he, hsnd⟩
      rw [List.mem_flatMap] at he
      obtain ⟨i, hi, he2⟩ := he
      rw [List.mem_map] at he2
      obtain ⟨j, hj, he3⟩ := he2
      rw [List.mem_range] at hi
      rw [List.mem_range] at hj
      subst he3
      rw [vtotEntry_snd_eq] at hsnd
      exact ⟨i, j, hi, hj, hsnd.1, hsnd.2.1, hsnd.2.2⟩
    · rintro ⟨i, j, hi, hj, hne1, hne2, hq⟩
      refine ⟨vtotEntry nptsminI nptsminJ visI visJ pot dnmi dnmj i j, ?_, ?_⟩
      · rw [List.mem_flatMap]
        exact ⟨i, List.mem_range.mpr hi, List.mem_map.mpr ⟨j, List.mem_range.mpr hj, rfl⟩⟩
      · rw [vtotEntry_snd_eq]
        exact ⟨hne1, hne2, hq⟩
  · rw [vcoupledFile]
    simp
  · intro row hrow
    rw [vcoupledFile] at hrow
    rw [List.mem_map] at hrow
    obtain ⟨jj, _, hrow2⟩ := hrow
    rw [← hrow2]
    simp
  · intro ii jj hii hjj
    rw [vcoupledFile]
    rw [rangeMap_getD _ _ _ jj hjj]
    rw [rangeMap_getD _ _ _ ii hii]

/-- Stored 1D potential oracle for the C4 witness. -/
def vis4 : ℕ → ℚ := fun _ => 5

/-- True-potential oracle for the C4 witness. -/
def pot4 : ℚ → ℚ → ℚ := fun a b => a + b

/-- Bicubic-fit oracle for the C4 witness. -/
def fit4 : List ℚ → ℚ → ℚ → ℚ := fun _ a b => a * b

/-- C4 (witness): the pair-mapping theorem instantiated on a concrete
non-cached pair, extracting the grid dimensions. -/
theorem C4_mapper_pair_witness :
    mapPairStep false 0 0 1 1 1 1 vis4 vis4 pot4 fit4 1 1 2 =
      some ((mapPairGrid 0 0 1 1 vis4 vis4 pot4 1 1).1,
        (mapPairGrid 0 0 1 1 vis4 vis4 pot4 1 1).2,
        vcoupledFile (fit4 (mapPairGrid 0 0 1 1 vis4 vis4 pot4 1 1).1) 1 1 1 1 1 1 2) ∧
    (mapPairGrid 0 0 1 1 vis4 vis4 pot4 1 1).1.length = (0 + 4) * (0 + 4) ∧
    (vcoupledFile (fit4 (mapPairGrid 0 0 1 1 vis4 vis4 pot4 1 1).1) 1 1 1 1 1 1 2).length = 2 := by
  have h := C4_mapper_pair 0 0 1 1 1 1 vis4 vis4 pot4 fit4 1 1 2
    (mapPairGrid 0 0 1 1 vis4 vis4 pot4 1 1).1
    (mapPairGrid 0 0 1 1 vis4 vis4 pot4 1 1).2
    (vcoupledFile (fit4 (mapPairGrid 0 0 1 1 vis4 vis4 pot4 1 1).1) 1 1 1 1 1 1 2) rfl
  exact ⟨rfl, h.2.1, h.2.2.2.2.1⟩

/- ===================== C3 : NormalModeMover.apply_asr ===================== -/

open scoped Matrix

/-- Degree-of-freedom index of an `n`-atom system: atom and Cartesian
component, the flat index `i = 3*iatom + idof` of the code. -/
abbrev VDof (n : ℕ) := Fin n × Fin 3

/-- Mass-weighted translation row `k` of `D` (`nm.py` 145-147):
`np.tile([1,0,0], natoms) / self.ism` and its two siblings; component
`(a, c)` is `(1 if c = k else 0) / ism (a, c)`, with `ism = 1/sqrt(m)`
supplied by the caller. -/
def transD (n : ℕ) (ism : VDof n → ℚ) (k : Fin 3) : VDof n → ℚ :=
  fun j => (if j.2 = k then 1 else 0) / ism j

/-- The projector `transfmatrix = np.eye(3N) - np.dot(D.T, D)` built from the
normalized rows (`nm.py` 150-154 and 185-190): each row is first divided by
`np.linalg.norm(D[k])`, so `(DᵀD)_{pq} = Σ_k d_k(p) d_k(q) / (d_k ⬝ d_k)`;
the two divisions by the norm are rendered together as one division by the
squared norm, which keeps the embedding inside `ℚ`. -/
def projOf {m : ℕ} {ι : Type} [Fintype ι] (d : ι → VDof m → ℚ) :
    Matrix (VDof m) (VDof m) ℚ :=
  1 - ∑ k, Matrix.of (fun p q => d k p * d k q / Matrix.dotProduct (d k) (d k))

/-- `apply_asr` with `asr = "none"` (`nm.py` 128-129): the matrix is returned
unchanged and `self.nz` keeps its prior value (`0` from `__init__`). -/
def applyAsrNone (n : ℕ) (dm : Matrix (VDof n) (VDof n) ℚ) (nz : ℕ) :
    Matrix (VDof n) (VDof n) ℚ × ℕ := (dm, nz)

/-- `apply_asr` with `asr = "crystal"` (`nm.py` 131-159): builds the three
normalized mass-weighted translation rows, returns
`r = np.dot(transfmatrix.T, np.dot(dm, transfmatrix))` and sets `nz = 3`.
(The centre of mass, inertia tensor and its eigenvectors are also computed
in this branch but never used.) -/
def applyAsrCrystal (n : ℕ) (ism : VDof n → ℚ)
    (dm : Matrix (VDof n) (VDof n) ℚ) : Matrix (VDof n) (VDof n) ℚ × ℕ :=
  ((projOf (transD n ism))ᵀ * (dm * projOf (transD n ism)), 3)

/-- Centre of mass (`nm.py` 163):
`np.dot(q.reshape((natoms,3)).T, m) / m.sum()`. -/
def comOf (n : ℕ) (m : Fin n → ℚ) (q : Fin n → Fin 3 → ℚ) (c : Fin 3) : ℚ :=
  (∑ a, m a * q a c) / ∑ a, m a

/-- `R = np.dot(qminuscom, U)` (`nm.py` 171), with `U` the eigenvector matrix
that `np.linalg.eig` returns for the moment-of-inertia tensor (an oracle of
the embedding). -/
def rotR (n : ℕ) (m : Fin n → ℚ) (q : Fin n → Fin 3 → ℚ)
    (U : Matrix (Fin 3) (Fin 3) ℚ) (a : Fin n) (p : Fin 3) : ℚ :=
  ∑ c, (q a c - comOf n m q c) * U c p

/-- The six rows of `D` in the `poly` branch (`nm.py` 172-187): three
mass-weighted translations, then the three rotation rows
`D[3,i] = (R[iatom,1]*U[idof,2] - R[iatom,2]*U[idof,1]) / ism[i]` and its
cyclic images `D[4]`, `D[5]`. -/
def polyD (n : ℕ) (m : Fin n → ℚ) (q : Fin n → Fin 3 → ℚ)
    (U : Matrix (Fin 3) (Fin 3) ℚ) (ism : VDof n → ℚ) (k : Fin 6) :
    VDof n → ℚ :=
  fun j =>
    if (k : ℕ) < 3 then (if (j.2 : ℕ) = (k : ℕ) then 1 else 0) / ism j
    else if (k : ℕ) = 3 then
      (rotR n m q U j.1 1 * U j.2 2 - rotR n m q U j.1 2 * U j.2 1) / ism j
    else if (k : ℕ) = 4 then
      (rotR n m q U j.1 2 * U j.2 0 - rotR n m q U j.1 0 * U j.2 2) / ism j
    else
      (rotR n m q U j.1 0 * U j.2 1 - rotR n m q U j.1 1 * U j.2 0) / ism j

/-- `apply_asr` with `asr = "poly"` (`nm.py` 161-195): the six normalized
rows (translations plus rotations), projected the same way; `nz = 6`. -/
def applyAsrPoly (n : ℕ) (m : Fin n → ℚ) (q : Fin n → Fin 3 → ℚ)
    (U : Matrix (Fin 3) (Fin 3) ℚ) (ism : VDof n → ℚ)
    (dm : Matrix (VDof n) (VDof n) ℚ) : Matrix (VDof n) (VDof n) ℚ × ℕ :=
  ((projOf (polyD n m q U ism))ᵀ * (dm * projOf (polyD n m q U ism)), 6)

theorem dotProduct_sum_left {m : ℕ} {ι : Type} [Fintype ι] (g : ι → ℚ)
    (d : ι → VDof m → ℚ) (w : VDof m → ℚ) :
    Matrix.dotProduct (∑ j, g j • d j) w = ∑ j, g j * Matrix.dotProduct (d j) w := by
  simp only [Matrix.dotProduct, Finset.sum_apply, Pi.smul_apply, smul_eq_mul]
  calc ∑ x, (∑ j, g j * d j x) * w x
      = ∑ x, ∑ j, g j * d j x * w x := by
        refine Finset.sum_congr rfl fun x _ => ?_
        rw [Finset.sum_mul]
    _ = ∑ j, ∑ x, g j * d j x * w x := Finset.sum_comm
    _ = ∑ j, g j * ∑ x, d j x * w x := by
        refine Finset.sum_congr rfl fun j _ => ?_
        rw [Finset.mul_sum]
        exact Finset.sum_congr rfl fun x _ => by ring

theorem projOf_mulVec_self {m : ℕ} {ι : Type} [Fintype ι] [DecidableEq ι]
    (d : ι → VDof m → ℚ) (k : ι)
    (horth : ∀ j, j ≠ k → Matrix.dotProduct (d j) (d k) = 0)
    (hk : Matrix.dotProduct (d k) (d k) ≠ 0) :
    (projOf d).mulVec (d k) = 0 := by
  funext p
  simp only [projOf, Matrix.mulVec, Matrix.dotProduct, Matrix.sub_apply, Matrix.one_apply,
    Matrix.sum_apply, Matrix.of_apply, Pi.zero_apply]
  rw [Finset.sum_congr rfl (fun q _ =>
    sub_mul (if p = q then (1 : ℚ) else 0)
      (∑ j, d j p * d j q / ∑ q2, d j q2 * d j q2) (d k q))]
  rw [Finset.sum_sub_distrib]
  have h1 : ∑ q : VDof m, (if p = q then (1 : ℚ) else 0) * d k q = d k p := by
    simp only [ite_mul, one_mul, zero_mul, Finset.sum_ite_eq, Finset.mem_univ, if_true]
  have h2 : ∑ q : VDof m, (∑ j, d j p * d j q / ∑ q2, d j q2 * d j q2) * d k q
      = d k p := by
    calc ∑ q : VDof m, (∑ j, d j p * d j q / ∑ q2, d j q2 * d j q2) * d k q
        = ∑ q : VDof m, ∑ j, d j p * d j q / (∑ q2, d j q2 * d j q2) * d k q := by
          refine Finset.sum_congr rfl fun q _ => ?_
          rw [Finset.sum_mul]
      _ = ∑ j, ∑ q : VDof m, d j p * d j q / (∑ q2, d j q2 * d j q2) * d k q :=
          Finset.sum_comm
      _ = ∑ j, d j p / (∑ q2, d j q2 * d j q2) * ∑ q : VDof m, d j q * d k q := by
          refine Finset.sum_congr rfl fun j _ => ?_
          rw [Finset.mul_sum]
          exact Finset.sum_congr rfl fun q _ => by ring
      _ = d k p := by
          rw [Finset.sum_eq_single k]
          · have hkk : (∑ q2 : VDof m, d k q2 * d k q2) ≠ 0 := hk
            rw [div_mul_cancel₀ (d k p) hkk]
          · intro j _ hj
            have hz : (∑ q : VDof m, d j q * d k q) = 0 := horth j hj
            rw [hz, mul_zero]
          · intro hk2
            exact absurd (Finset.mem_univ k) hk2
  rw [h1, h2, sub_self]

theorem asrProj_annihilates {m : ℕ} {ι : Type} [Fintype ι] [DecidableEq ι]
    (d : ι → VDof m → ℚ) (k : ι) (dm : Matrix (VDof m) (VDof m) ℚ)
    (horth : ∀ j, j ≠ k → Matrix.dotProduct (d j) (d k) = 0)
    (hk : Matrix.dotProduct (d k) (d k) ≠ 0) :
    ((projOf d)ᵀ * (dm * projOf d)).mulVec (d k) = 0 := by
  rw [← Matrix.mulVec_mulVec, ← Matrix.mulVec_mulVec,
    projOf_mulVec_self d k horth hk, Matrix.mulVec_zero, Matrix.mulVec_zero]

theorem linearIndependent_of_orthogonal {m : ℕ} {ι : Type} [Fintype ι] [DecidableEq ι]
    (d : ι → VDof m → ℚ)
    (horth : ∀ j k2, j ≠ k2 → Matrix.dotProduct (d j) (d k2) = 0)
    (hself : ∀ k2, Matrix.dotProduct (d k2) (d k2) ≠ 0) :
    LinearIndependent ℚ d := by
  rw [Fintype.linearIndependent_iff]
  intro g hg k
  have hdot : Matrix.dotProduct (∑ j, g j • d j) (d k) = 0 := by
    rw [hg, Matrix.zero_dotProduct]
  rw [dotProduct_sum_left] at hdot
  have hsum : ∑ j, g j * Matrix.dotProduct (d j) (d k)
      = g k * Matrix.dotProduct (d k) (d k) :=
    Finset.sum_eq_single k (fun j _ hj => by rw [horth j k hj, mul_zero])
      (fun hk2 => absurd (Finset.mem_univ k) hk2)
  rw [hsum] at hdot
  rcases mul_eq_zero.mp hdot with h | h
  · exact h
  · exact absurd h (hself k)

theorem transD_orth (n : ℕ) (ism : VDof n → ℚ) (j k : Fin 3) (hjk : j ≠ k) :
    Matrix.dotProduct (transD n ism j) (transD n ism k) = 0 := by
  rw [Matrix.dotProduct]
  refine Finset.sum_eq_zero fun x _ => ?_
  simp only [transD]
  by_cases h1 : x.2 = j
  · rw [if_pos h1, if_neg (fun h => hjk (h1.symm.trans h))]
    simp
  · rw [if_neg h1]
    simp

theorem transD_selfdot_ne (n : ℕ) (ism : VDof n → ℚ) (hn : 0 < n)
    (hism : ∀ x, ism x ≠ 0) (k : Fin 3) :
    Matrix.dotProduct (transD n ism k) (transD n ism k) ≠ 0 := by
  rw [Matrix.dotProduct]
  have hpos : 0 < ∑ x : VDof n, transD n ism k x * transD n ism k x := by
    refine Finset.sum_pos' (fun x _ => mul_self_nonneg _) ?_
    refine ⟨(⟨0, hn⟩, k), Finset.mem_univ _, ?_⟩
    have ht : transD n ism k (⟨0, hn⟩, k) = 1 / ism (⟨0, hn⟩, k) := by
      simp [transD]
    rw [ht]
    exact mul_self_pos.mpr (one_div_ne_zero (hism _))
  exact ne_of_gt hpos

/-- Unit inverse-square-root-mass vector for the C3 concrete instances. -/
def ismOne2 : VDof 2 → ℚ := fun _ => 1

/-- Relative x-displacement of two atoms: annihilated by the
crystal-projected zero matrix although it is not a translation. -/
def vRel2 : VDof 2 → ℚ :=
  fun j => if j.1 = 0 ∧ j.2 = 0 then 1 else if j.1 = 1 ∧ j.2 = 0 then -1 else 0

/-- C3 (counterexample): with two atoms, unit masses and the empty-input
dynamical matrix (which `IMF.bind` zero-fills, so `dm = 0` reaches
`apply_asr`), the crystal-projected matrix is the zero matrix: it
annihilates the relative-displacement vector `vRel2`, which lies outside
the span of the three translation rows, so the projected matrix has more
than 3 zero eigenvalues -- `exactly 3` fails. -/
theorem C3_counterexample :
    (applyAsrCrystal 2 ismOne2 0).1.mulVec vRel2 = 0 ∧
    vRel2 ∉ Submodule.span ℚ (Set.range (transD 2 ismOne2)) ∧
    ¬ (∀ v, (applyAsrCrystal 2 ismOne2 0).1.mulVec v = 0 →
        v ∈ Submodule.span ℚ (Set.range (transD 2 ismOne2))) := by
  have hzero : (applyAsrCrystal 2 ismOne2 0).1.mulVec vRel2 = 0 := by
    rw [applyAsrCrystal]
    simp only [Matrix.mul_zero, Matrix.zero_mul, Matrix.zero_mulVec]
  have hnotin : vRel2 ∉ Submodule.span ℚ (Set.range (transD 2 ismOne2)) := by
    intro hmem
    obtain ⟨c, hc⟩ := (mem_span_range_iff_exists_fun ℚ).mp hmem
    have h00 := congrFun hc ((0 : Fin 2), (0 : Fin 3))
    have h10 := congrFun hc ((1 : Fin 2), (0 : Fin 3))
    simp only [Finset.sum_apply, Pi.smul_apply, smul_eq_mul, Fin.sum_univ_three] at h00 h10
    norm_num [transD, ismOne2, vRel2] at h00 h10
    rw [h00] at h10
    norm_num at h10
  exact ⟨hzero, hnotin, fun hall => hnotin (hall vRel2 hzero)⟩

/-- C3 (amended): `apply_asr` with `asr = "none"` returns the input matrix
unchanged and leaves `nz` at its prior value 0; with `asr = "crystal"` it
returns `r = Pᵀ dm P` where `P = I - DᵀD` is built from the 3 normalized
mass-weighted translation rows and sets `nz = 3`, and (for a non-empty
system with nonzero `ism` entries) the projected matrix annihilates the
3-dimensional translation subspace -- the 3 translation rows are linearly
independent and are mapped to zero, so 0 is an eigenvalue of multiplicity
at least 3 (`exactly 3` holds only for generic `dm`, failing e.g. for
`dm = 0`); with `asr = "poly"` it additionally projects with the 3
rotational rows derived from the inertia-eigenvector matrix `U` and sets
`nz = 6`, and whenever the 6 rows are pairwise orthogonal with nonzero
squared norms (which holds when `np.linalg.eig` returns orthogonal
eigenvectors for a non-degenerate inertia tensor) the projected matrix
annihilates all 6 rows, giving at least 6 zero eigenvalues. -/
theorem C3_apply_asr_amended :
    (∀ (n : ℕ) (dm : Matrix (VDof n) (VDof n) ℚ) (nz : ℕ),
      applyAsrNone n dm nz = (dm, nz)) ∧
    (∀ (n : ℕ) (ism : VDof n → ℚ) (dm : Matrix (VDof n) (VDof n) ℚ),
      0 < n → (∀ x, ism x ≠ 0) →
      ((applyAsrCrystal n ism dm).2 = 3 ∧
        (∀ k : Fin 3, (applyAsrCrystal n ism dm).1.mulVec (transD n ism k) = 0) ∧
        LinearIndependent ℚ (transD n ism))) ∧
    (∀ (n : ℕ) (m : Fin n → ℚ) (q : Fin n → Fin 3 → ℚ)
        (U : Matrix (Fin 3) (Fin 3) ℚ) (ism : VDof n → ℚ)
        (dm : Matrix (VDof n) (VDof n) ℚ),
      (∀ j k : Fin 6, j ≠ k →
        Matrix.dotProduct (polyD n m q U ism j) (polyD n m q U ism k) = 0) →
      (∀ k : Fin 6,
        Matrix.dotProduct (polyD n m q U ism k) (polyD n m q U ism k) ≠ 0) →
      ((applyAsrPoly n m q U ism dm).2 = 6 ∧
        (∀ k : Fin 6, (applyAsrPoly n m q U ism dm).1.mulVec (polyD n m q U ism k) = 0) ∧
        LinearIndependent ℚ (polyD n m q U ism))) := by
  refine ⟨fun n dm nz => rfl, ?_, ?_⟩
  · intro n ism dm hn hism
    refine ⟨rfl, ?_, ?_⟩
    · intro k
      exact asrProj_annihilates (transD n ism) k dm
        (fun j hj => transD_orth n ism j k hj)
        (transD_selfdot_ne n ism hn hism k)
    · exact linearIndependent_of_orthogonal (transD n ism)
        (fun j k2 hj => transD_orth n ism j k2 hj)
        (fun k2 => transD_selfdot_ne n ism hn hism k2)
  · intro n m q U ism dm horth hself
    refine ⟨rfl, ?_, ?_⟩
    · intro k
      exact asrProj_annihilates (polyD n m q U ism) k dm
        (fun j hj => horth j k hj) (hself k)
    · exact linearIndependent_of_orthogonal (polyD n m q U ism) horth hself

/-- Unit inverse-square-root masses of the 4-atom witness system. -/
def ism4 : VDof 4 → ℚ := fun _ => 1

/-- Unit masses of the 4-atom witness system. -/
def m4 : Fin 4 → ℚ := fun _ => 1

/-- Positions of the witness system: a square `(1,0,0)`, `(-1,0,0)`,
`(0,1,0)`, `(0,-1,0)`, whose inertia tensor is diagonal, so the identity
diagonalizes it. -/
def q4 : Fin 4 → Fin 3 → ℚ :=
  fun a c =>
    if a = 0 ∧ c = 0 then 1
    else if a = 1 ∧ c = 0 then -1
    else if a = 2 ∧ c = 1 then 1
    else if a = 3 ∧ c = 1 then -1
    else 0

/-- Inertia-eigenvector oracle of the witness system: the identity. -/
def U4 : Matrix (Fin 3) (Fin 3) ℚ := 1

/-- C3 (witness): the amended statement instantiated on the 4-atom square,
discharging the positivity, nonzero-`ism` and row-orthogonality
hypotheses on concrete rationals. -/
theorem C3_apply_asr_witness :
    ((applyAsrCrystal 4 ism4 0).2 = 3 ∧
      (∀ k : Fin 3, (applyAsrCrystal 4 ism4 0).1.mulVec (transD 4 ism4 k) = 0) ∧
      LinearIndependent ℚ (transD 4 ism4)) ∧
    ((applyAsrPoly 4 m4 q4 U4 ism4 0).2 = 6 ∧
      (∀ k : Fin 6, (applyAsrPoly 4 m4 q4 U4 ism4 0).1.mulVec (polyD 4 m4 q4 U4 ism4 k) = 0) ∧
      LinearIndependent ℚ (polyD 4 m4 q4 U4 ism4)) :=
  ⟨C3_apply_asr_amended.2.1 4 ism4 0 (by norm_num) (fun x => by norm_num [ism4]),
    C3_apply_asr_amended.2.2 4 m4 q4 U4 ism4 0
      (by with_unfolding_all decide) (by with_unfolding_all decide)⟩
